import Mathlib

/-
Verification of the core of the region-fill-dirichlet repository: the exact
Dirichlet solver (class dirichlet::Fill in include/dirichlet/Fill.hpp), the
approximate bilinear-accelerated solver (class dirichlet::FillBiLin in
include/dirichlet/FillBiLin.hpp) and their support code under
include/dirichlet/impl/.

The embedding is shallow:

* machine integers become ℤ (coordinate arithmetic is far below any overflow
  in all claims considered);
* Eigen float vectors and the image component values become ℚ, so the linear
  algebra is exact; the solution of the assembled system is characterised by
  the linear equations rather than by an embedded Cholesky factorisation;
* the C cast from a floating value to an integer type truncates toward zero
  and is modelled by truncZ below;
* Eigen arrays are modelled as total functions from coordinates; writes into
  an array become Function.update, folded over the written positions in
  program order, so aliasing and overwriting behave exactly as in the code.

Eigen layout facts used by the embedding (Eigen 3.4):
* ArrayXX is column-major, so the linear (reshaped or mapped) index of entry
  (r, c) of an H-by-W array is r + c*H;
* DenseBase::reshaped() with no template argument enumerates entries in
  column-major order regardless of the expression storage order;
* a Map over Array with RowMajor layout and inner Stride (1, s) places entry
  (r, c) of an h-by-w logical image at memory offset (r*w + c)*s, and its
  plain linear operator() follows storage (row-major) order, so im(i) reads
  memory offset i*s.
-/

namespace RFD

/-- Truncation of a rational toward zero, the effect of the C cast from a
floating-point value to an integer type. -/
def truncZ (q : ℚ) : ℤ := q.num.tdiv q.den

/-- Sequential stores into an array modelled as a function: each pair (k, v)
in the list overwrites index k with v, in list order. -/
def writeAll {κ α : Type} [DecidableEq κ] (init : κ → α) (ws : List (κ × α)) : κ → α :=
  ws.foldl (fun f w => Function.update f w.1 w.2) init

namespace Fill

/-- Pixel position, as the pair (row, col). -/
abbrev Pos := ℕ × ℕ

/-- Fill::findCoords: scan the mask row-major over the interior (the border
of width ew = 1 is skipped), emitting the coordinates of every pixel whose
component, read at memory offset (r*W + c)*stride, is non-zero.  For H ≤ 2 or
W ≤ 2 no row or column index passes the interior test, matching the early
return of the C++ code. -/
def findCoords (mask : ℕ → ℤ) (W H stride : ℕ) : List Pos :=
  (List.range H).flatMap fun r =>
    (List.range W).filterMap fun c =>
      if 1 ≤ r ∧ r + 2 ≤ H ∧ 1 ≤ c ∧ c + 2 ≤ W ∧ mask ((r * W + c) * stride) ≠ 0
      then some (r, c) else none

/-- First half of Fill::initCoords: keep, in caller order, exactly the
coordinate pairs with row in [1, H-2] and col in [1, W-2] (border width
b = 1); everything else is silently dropped.  Faithful to the C++ bounds
rmin = 1, rmax = H - 1 - 1 for H ≥ 2 (and likewise for columns). -/
def initCoords (coords : List (ℤ × ℤ)) (W H : ℕ) : List Pos :=
  coords.filterMap fun p =>
    if 1 ≤ p.1 ∧ p.1 ≤ (H : ℤ) - 2 ∧ 1 ≤ p.2 ∧ p.2 ≤ (W : ℤ) - 2
    then some (p.1.toNat, p.2.toNat) else none

/-- The catalogue built by the from-mask constructor
Fill(mask, width, height, stride, cg): findCoords feeds the scanned
coordinates (as signed integers, the ArrayX2i entries) into the coordinate
filter of initCoords. -/
def fillCoords (mask : ℕ → ℤ) (W H stride : ℕ) : List Pos :=
  initCoords ((findCoords mask W H stride).map fun p => ((p.1 : ℤ), (p.2 : ℤ))) W H

/-- Second half of Fill::initCoords: the coordinates map.  The C++ fills an
H-by-W column-major buffer with -1 and then stores each catalogue offset i at
linear index r + c*H of coords[i] = (r, c); positions are kept as pairs here,
which is equivalent because every written position has row < H, making the
linear index injective. -/
def coordsMap (coords : List Pos) : Pos → ℤ :=
  writeAll (fun _ => -1) (coords.enum.map fun e => (e.2, (e.1 : ℤ)))

/-- Fill::nVal: the code value for the neighbour at (r, c).  When the
coordsMap entry a is -1 the neighbour is boundary and the value is the
negative encoding -1 - (c + r*W) of its row-major linear offset; otherwise
the value is a, the neighbour's catalogue offset.  This is the branchless
b*(-1 - nLinRowMaj) + (1-b)*a of the source with b = (a == -1). -/
def nVal (cm : Pos → ℤ) (W : ℕ) (r c : ℕ) : ℤ :=
  if cm (r, c) = -1 then -1 - ((c : ℤ) + (r : ℤ) * (W : ℤ)) else cm (r, c)

/-- One row of the neighbour table: code values for the left, right, top and
bottom neighbours of a filled pixel. -/
structure Nbrs where
  lft : ℤ
  rgt : ℤ
  top : ℤ
  bot : ℤ
deriving DecidableEq, Repr

/-- The neighbour table Fill::lrtb: row i holds the code values for the four
neighbours of catalogue entry i.  Catalogue rows and columns are at least 1
(the border is excluded), so the ℕ subtractions are exact. -/
def lrtb (coords : List Pos) (W : ℕ) : List Nbrs :=
  coords.map fun p =>
    { lft := nVal (coordsMap coords) W p.1 (p.2 - 1)
      rgt := nVal (coordsMap coords) W p.1 (p.2 + 1)
      top := nVal (coordsMap coords) W (p.1 - 1) p.2
      bot := nVal (coordsMap coords) W (p.1 + 1) p.2 }

/-- The triplets Fill::initMatrix pushes for row i: the diagonal +4 and, for
each neighbour code value that is non-negative (an unknown), a -1 at that
column. -/
def tripletsRow (i : ℕ) (t : Nbrs) : List (ℕ × ℕ × ℚ) :=
  (i, i, (4 : ℚ)) ::
    ((if 0 ≤ t.lft then [(i, t.lft.toNat, (-1 : ℚ))] else []) ++
     (if 0 ≤ t.rgt then [(i, t.rgt.toNat, (-1 : ℚ))] else []) ++
     (if 0 ≤ t.top then [(i, t.top.toNat, (-1 : ℚ))] else []) ++
     (if 0 ≤ t.bot then [(i, t.bot.toNat, (-1 : ℚ))] else []))

/-- All triplets pushed by Fill::initMatrix, in program order. -/
def triplets (coords : List Pos) (W : ℕ) : List (ℕ × ℕ × ℚ) :=
  (lrtb coords W).enum.flatMap fun e => tripletsRow e.1 e.2

/-- Selection of the triplets contributing to entry (i, j). -/
def sel (i j : ℕ) (x : ℕ × ℕ × ℚ) : Option ℚ :=
  if x.1 = i ∧ x.2.1 = j then some x.2.2 else none

/-- Entry (i, j) of the sparse matrix a_: Eigen's setFromTriplets sums every
triplet carrying that index pair. -/
def aMat (coords : List Pos) (W : ℕ) (i j : ℕ) : ℚ :=
  ((triplets coords W).filterMap (sel i j)).sum

/-- One summand of b in Fill::solve, for neighbour code value e: the factor
f = (e < 0) ? 1 : 0 times the image value at the clamped offset
f * (-e - 1); with f = 0 the image is read at offset 0 and the product
vanishes, exactly as in the vectorised source. -/
def bTerm (im : ℕ → ℚ) (e : ℤ) : ℚ :=
  (if e < 0 then (1 : ℚ) else 0) * im (if e < 0 then (-e - 1).toNat else 0)

/-- Row i of the right-hand side b assembled by Fill::solve, bL + bR + bT + bB. -/
def bRow (im : ℕ → ℚ) (t : Nbrs) : ℚ :=
  bTerm im t.lft + bTerm im t.rgt + bTerm im t.top + bTerm im t.bot

/-- The right-hand-side value for catalogue entry i. -/
def bVal (coords : List Pos) (W : ℕ) (im : ℕ → ℚ) (i : ℕ) : ℚ :=
  bRow im ((lrtb coords W).getD i ⟨0, 0, 0, 0⟩)

/-- Written from the spec for comparison with the code (4.4): for catalogue
entry i, b[i] is the sum of the image-component values at the row-major
offsets decoded from the boundary-encoded (negative) neighbour code values;
unknown-encoded neighbours contribute nothing. -/
def specBoundarySum (im : ℕ → ℚ) (t : Nbrs) : ℚ :=
  (if t.lft < 0 then im ((-t.lft - 1).toNat) else 0) +
  (if t.rgt < 0 then im ((-t.rgt - 1).toNat) else 0) +
  (if t.top < 0 then im ((-t.top - 1).toNat) else 0) +
  (if t.bot < 0 then im ((-t.bot - 1).toNat) else 0)

/-- The contribution of one neighbour code value to matrix column j: -1 when
the neighbour is encoded as unknown j, otherwise nothing.  Used to state the
shape of each assembled row. -/
def rowTerm (e : ℤ) (j : ℕ) : ℚ := if 0 ≤ e ∧ e.toNat = j then -1 else 0

/-- x solves the assembled linear system a_ x = b: the defining property of
the vector returned by Fill::solve (there via exact Cholesky or conjugate
gradients). -/
def isSolution (coords : List Pos) (W : ℕ) (im : ℕ → ℚ) (x : ℕ → ℚ) : Prop :=
  ∀ i < coords.length,
    ((List.range coords.length).map fun j => aMat coords W i j * x j).sum
      = bVal coords W im i

/-- The rounded value stored by copySolutionBackIntoImage for an unsigned
integer component: the C cast of x + 0.5. -/
def roundUnsigned (x : ℚ) : ℤ := truncZ (x + 1/2)

/-- The rounded value stored by copySolutionBackIntoImage for a signed
integer component, exactly as computed by the source:
neg*rdn + (1 - neg)*rup with neg = (x < 0), rup = cast(x + 0.5),
rdn = cast(x - 0.5). -/
def roundSigned (x : ℚ) : ℤ :=
  (if x < 0 then (1 : ℤ) else 0) * truncZ (x - 1/2)
    + (1 - if x < 0 then (1 : ℤ) else 0) * truncZ (x + 1/2)

/-- Fill::copySolutionBackIntoImage for a signed integer component: for each
catalogue entry i = (r, c), store the rounded solution x i at memory offset
(r*W + c)*stride, the row-major address of the component seen through the
strided map im (im(ii) with ii = r*W + c). -/
def copyBackSigned (coords : List Pos) (W stride : ℕ) (x : ℕ → ℚ)
    (mem : ℕ → ℤ) : ℕ → ℤ :=
  writeAll mem
    (coords.enum.map fun e => ((e.2.1 * W + e.2.2) * stride, roundSigned (x e.1)))

/-- Fill::copySolutionBackIntoImage for an unsigned integer component. -/
def copyBackUnsigned (coords : List Pos) (W stride : ℕ) (x : ℕ → ℚ)
    (mem : ℕ → ℤ) : ℕ → ℤ :=
  writeAll mem
    (coords.enum.map fun e => ((e.2.1 * W + e.2.2) * stride, roundUnsigned (x e.1)))

/-- Fill::copySolutionBackIntoImage for a floating-point component: the
solution value is stored unrounded (the C cast between floating types is the
identity in the rational model). -/
def copyBackFloat (coords : List Pos) (W stride : ℕ) (x : ℕ → ℚ)
    (mem : ℕ → ℚ) : ℕ → ℚ :=
  writeAll mem (coords.enum.map fun e => ((e.2.1 * W + e.2.2) * stride, x e.1))

end Fill

namespace FillBiLin

open Fill (Pos roundSigned roundUnsigned)

/-- impl::pow2: smallest power of two that is at least i, computed by the
doubling loop of the source (fuel i bounds the iteration count, which the
loop reaches for every i since 2^i ≥ i). -/
def pow2go : ℕ → ℕ → ℕ → ℕ
  | 0, r, _ => r
  | fuel + 1, r, i => if r < i then pow2go fuel (2 * r) i else r

/-- Smallest power of two at least i (impl::pow2). -/
def pow2 (i : ℕ) : ℕ := pow2go i 1 i

/-- A two-dimensional boolean array of given height and width, as used for
the extended mask and its binned versions. -/
structure BArr where
  h : ℕ
  w : ℕ
  f : ℕ → ℕ → Bool

/-- impl::bin2x2: logical 2x2 binning; entry (r, c) is the conjunction of
the four entries (2r, 2c), (2r+1, 2c), (2r, 2c+1), (2r+1, 2c+1). -/
def bin2x2 (a : BArr) : BArr :=
  ⟨a.h / 2, a.w / 2, fun r c =>
    a.f (2*r) (2*c) && a.f (2*r+1) (2*c) && a.f (2*r) (2*c+1) && a.f (2*r+1) (2*c+1)⟩

/-- impl::validSquare: true at (r, c) iff (r, c) is away from the array edge
and the centre together with its four cardinal neighbours are all true; the
edge rows and columns stay false. -/
def validSquare (a : BArr) : BArr :=
  ⟨a.h, a.w, fun r c =>
    decide (1 ≤ r) && decide (r + 2 ≤ a.h) && decide (1 ≤ c) && decide (c + 2 ≤ a.w) &&
    (a.f (r-1) c && a.f (r+1) c && a.f r (c-1) && a.f r (c+1) && a.f r c)⟩

/-- impl::unbin2x2: 2x2 expansion; each entry of a covers the corresponding
2x2 block of the result. -/
def unbin2x2 (a : BArr) : BArr := ⟨2 * a.h, 2 * a.w, fun r c => a.f (r / 2) (c / 2)⟩

/-- A square accepted at some binning level: cell row, cell column and the
absolute binning factor (the side of the square in pixels). -/
abbrev Sq := ℕ × ℕ × ℕ

/-- FillBiLin::registerSquares: walk the valid map column by column (outer
loop over columns, inner over rows) and collect every true cell. -/
def squaresOf (v : BArr) (bf : ℕ) : List Sq :=
  (List.range v.w).flatMap fun c =>
    (List.range v.h).filterMap fun r => if v.f r c then some (r, c, bf) else none

/-- FillBiLin::binMask: bin the higher-resolution mask, find valid squares at
this level, recurse while the binned mask has at least 8 rows and columns,
remove from this level any cell overlapping a cell valid at the next level
(via unbin2x2 of the recursive result), and return this level's valid map.
The structural fuel argument only bounds the recursion depth; the source
recursion halves the mask each level, so fuel = initial height suffices and
the fuel-0 branch is never taken on the paths the constructor executes. -/
def binMask (fuel : ℕ) (hi : BArr) (bf : ℕ) : List Sq × BArr :=
  let lo := bin2x2 hi
  let loValid := validSquare lo
  match fuel with
  | 0 => (squaresOf loValid bf, loValid)
  | fuel + 1 =>
    if 8 ≤ lo.h ∧ 8 ≤ lo.w then
      let rest := binMask fuel lo (2 * bf)
      (rest.1 ++
         squaresOf
           ⟨loValid.h, loValid.w, fun r c => loValid.f r c && !(unbin2x2 rest.2).f r c⟩ bf,
       loValid)
    else (squaresOf loValid bf, loValid)

/-- The five per-pixel weight channels of impl::Weights (left, right, top,
bottom, centre), all zero at construction. -/
structure Weights where
  lft : ℕ → ℕ → ℤ
  rgt : ℕ → ℕ → ℤ
  top : ℕ → ℕ → ℤ
  bot : ℕ → ℕ → ℤ
  cen : ℕ → ℕ → ℤ

/-- All five weights zero, the state produced by the Weights constructor. -/
def zeroWeights : Weights :=
  ⟨fun _ _ => 0, fun _ _ => 0, fun _ _ => 0, fun _ _ => 0, fun _ _ => 0⟩

/-- Write value v at the single pixel (r0, c0) of one weight channel. -/
def setPix (f : ℕ → ℕ → ℤ) (r0 c0 : ℕ) (v : ℤ) : ℕ → ℕ → ℤ :=
  fun r c => if r = r0 ∧ c = c0 then v else f r c

/-- The mutable state of the FillBiLin constructor: the weight channels, the
extended mask (progressively cleared), the coordinates map and the corner
list (with the square count nSquares_ = corners.length). -/
structure BState where
  wts : Weights
  mask : ℕ → ℕ → Bool
  cmap : Pos → ℤ
  corners : List (ℕ × ℕ × ℕ)

/-- FillBiLin::registerSquareWeights: on the square [top, bot] x [lft, rgt]
write the corner stencil (1,1,1,1,-4) at the four corners, the vertical-edge
stencil (lft=0, rgt=0, top=1, bot=1, cen=-2) on the left and right edges, and
the horizontal-edge stencil (1,1,0,0,-2) on the top and bottom edges; all
other pixels keep their weights.  The three regions written by the source
(corner rows x corner cols, edge rows x corner cols, corner rows x edge cols)
are pairwise disjoint. -/
def registerSquareWeights (top lft bot rgt : ℕ) (wts : Weights) : Weights :=
  let crnrR := fun r => r = top ∨ r = bot
  let crnrC := fun c => c = lft ∨ c = rgt
  let edgeR := fun r => top + 1 ≤ r ∧ r + 1 ≤ bot
  let edgeC := fun c => lft + 1 ≤ c ∧ c + 1 ≤ rgt
  { lft := fun r c => if crnrR r ∧ crnrC c then 1 else
      if edgeR r ∧ crnrC c then 0 else
      if crnrR r ∧ edgeC c then 1 else wts.lft r c
    rgt := fun r c => if crnrR r ∧ crnrC c then 1 else
      if edgeR r ∧ crnrC c then 0 else
      if crnrR r ∧ edgeC c then 1 else wts.rgt r c
    top := fun r c => if crnrR r ∧ crnrC c then 1 else
      if edgeR r ∧ crnrC c then 1 else
      if crnrR r ∧ edgeC c then 0 else wts.top r c
    bot := fun r c => if crnrR r ∧ crnrC c then 1 else
      if edgeR r ∧ crnrC c then 1 else
      if crnrR r ∧ edgeC c then 0 else wts.bot r c
    cen := fun r c => if crnrR r ∧ crnrC c then -4 else
      if edgeR r ∧ crnrC c then -2 else
      if crnrR r ∧ edgeC c then -2 else wts.cen r c }

/-- FillBiLin::eliminateSquareFromMask: clear the extended mask on the whole
square, perimeter included. -/
def eliminateSquareFromMask (top lft bot rgt : ℕ) (mask : ℕ → ℕ → Bool) :
    ℕ → ℕ → Bool :=
  fun r c => if top ≤ r ∧ r ≤ bot ∧ lft ≤ c ∧ c ≤ rgt then false else mask r c

/-- FillBiLin::registerSquare for the accepted cell (r, c) at absolute
binning factor bf: the square has top = r*bf, lft = c*bf and side bf; write
its perimeter weights, clear it from the mask, append (top, lft, bf) to the
corner list and mark the strict interior with -2 in the coordinates map. -/
def registerSquare (s : BState) (sq : Sq) : BState :=
  let top := sq.1 * sq.2.2
  let lft := sq.2.1 * sq.2.2
  let bot := top + sq.2.2 - 1
  let rgt := lft + sq.2.2 - 1
  { wts := registerSquareWeights top lft bot rgt s.wts
    mask := eliminateSquareFromMask top lft bot rgt s.mask
    cmap := fun p =>
      if top + 1 ≤ p.1 ∧ p.1 + 1 ≤ bot ∧ lft + 1 ≤ p.2 ∧ p.2 + 1 ≤ rgt then -2
      else s.cmap p
    corners := s.corners ++ [(top, lft, sq.2.2)] }

/-- Register every accepted square, in the order binMask produced them. -/
def registerAll (s : BState) (sqs : List Sq) : BState := sqs.foldl registerSquare s

/-- FillBiLin::populateCornerWeights: at each of the four image corners
whose extended-mask entry is still set, write the two available unit
neighbour weights and centre -2; the other channels are untouched. -/
def populateCornerWeights (h w : ℕ) (s : BState) : BState :=
  let s1 := if s.mask 0 0 then
      { s with wts := { s.wts with
          bot := setPix s.wts.bot 0 0 1
          rgt := setPix s.wts.rgt 0 0 1
          cen := setPix s.wts.cen 0 0 (-2) } } else s
  let s2 := if s1.mask 0 (w-1) then
      { s1 with wts := { s1.wts with
          bot := setPix s1.wts.bot 0 (w-1) 1
          lft := setPix s1.wts.lft 0 (w-1) 1
          cen := setPix s1.wts.cen 0 (w-1) (-2) } } else s1
  let s3 := if s2.mask (h-1) (w-1) then
      { s2 with wts := { s2.wts with
          top := setPix s2.wts.top (h-1) (w-1) 1
          lft := setPix s2.wts.lft (h-1) (w-1) 1
          cen := setPix s2.wts.cen (h-1) (w-1) (-2) } } else s2
  let s4 := if s3.mask (h-1) 0 then
      { s3 with wts := { s3.wts with
          top := setPix s3.wts.top (h-1) 0 1
          rgt := setPix s3.wts.rgt (h-1) 0 1
          cen := setPix s3.wts.cen (h-1) 0 (-2) } } else s3
  s4

/-- FillBiLin::populateEdgeWeights: on each border strip (left and right
columns, top and bottom rows, excluding the corners: the other index runs
over [1, h-2] or [1, w-2]), set the three available neighbour channels to
mask*1 and the centre to mask*(-3); the channel pointing off the image is
not assigned.  The four strips are written in source order. -/
def populateEdgeWeights (h w : ℕ) (s : BState) : BState :=
  let m : ℕ → ℕ → ℤ := fun r c => if s.mask r c then 1 else 0
  let onL := fun (r c : ℕ) => c = 0 ∧ 1 ≤ r ∧ r + 2 ≤ h
  let onT := fun (r c : ℕ) => r = 0 ∧ 1 ≤ c ∧ c + 2 ≤ w
  let onR := fun (r c : ℕ) => c = w - 1 ∧ 1 ≤ r ∧ r + 2 ≤ h
  let onB := fun (r c : ℕ) => r = h - 1 ∧ 1 ≤ c ∧ c + 2 ≤ w
  let w1 := { s.wts with
    top := fun r c => if onL r c then m r c else s.wts.top r c
    rgt := fun r c => if onL r c then m r c else s.wts.rgt r c
    bot := fun r c => if onL r c then m r c else s.wts.bot r c
    cen := fun r c => if onL r c then -3 * m r c else s.wts.cen r c }
  let w2 := { w1 with
    lft := fun r c => if onT r c then m r c else w1.lft r c
    rgt := fun r c => if onT r c then m r c else w1.rgt r c
    bot := fun r c => if onT r c then m r c else w1.bot r c
    cen := fun r c => if onT r c then -3 * m r c else w1.cen r c }
  let w3 := { w2 with
    top := fun r c => if onR r c then m r c else w2.top r c
    lft := fun r c => if onR r c then m r c else w2.lft r c
    bot := fun r c => if onR r c then m r c else w2.bot r c
    cen := fun r c => if onR r c then -3 * m r c else w2.cen r c }
  let w4 := { w3 with
    lft := fun r c => if onB r c then m r c else w3.lft r c
    rgt := fun r c => if onB r c then m r c else w3.rgt r c
    top := fun r c => if onB r c then m r c else w3.top r c
    cen := fun r c => if onB r c then -3 * m r c else w3.cen r c }
  { s with wts := w4 }

/-- FillBiLin::populateInteriorWeights: on the interior [1, h-2] x [1, w-2],
add mask*(1,1,1,1,-4) to the five channels. -/
def populateInteriorWeights (h w : ℕ) (s : BState) : BState :=
  let m : ℕ → ℕ → ℤ := fun r c => if s.mask r c then 1 else 0
  let inI := fun (r c : ℕ) => 1 ≤ r ∧ r + 2 ≤ h ∧ 1 ≤ c ∧ c + 2 ≤ w
  { s with wts := { s.wts with
      lft := fun r c => s.wts.lft r c + (if inI r c then m r c else 0)
      rgt := fun r c => s.wts.rgt r c + (if inI r c then m r c else 0)
      top := fun r c => s.wts.top r c + (if inI r c then m r c else 0)
      bot := fun r c => s.wts.bot r c + (if inI r c then m r c else 0)
      cen := fun r c => s.wts.cen r c + (if inI r c then -4 * m r c else 0) } }

/-- The catalogue scan of FillBiLin::initMatrix: every pixel of the h-by-w
image with non-zero centre weight, columns in the outer loop and rows in the
inner loop. -/
def scanCoords (h w : ℕ) (cen : ℕ → ℕ → ℤ) : List Pos :=
  (List.range w).flatMap fun c =>
    (List.range h).filterMap fun r => if cen r c ≠ 0 then some (r, c) else none

/-- The coordinates-map update of FillBiLin::initMatrix: store each
catalogue offset at its pixel (the C++ writes at column-major linear index
r + c*h of the reshaped map; positions are kept as pairs, equivalent since
every scanned position has r < h). -/
def initMatrixCmap (coords : List Pos) (cmap : Pos → ℤ) : Pos → ℤ :=
  writeAll cmap (coords.enum.map fun e => (e.2, (e.1 : ℤ)))

/-- The observable state of a constructed FillBiLin. -/
structure Result where
  wts : Weights
  mask : ℕ → ℕ → Bool
  cmap : Pos → ℤ
  corners : List (ℕ × ℕ × ℕ)
  coords : List Pos

/-- FillBiLin::extendMask: zero-extend the h-by-w mask to the power-of-two
dimensions pow2 h by pow2 w. -/
def extendMask (mask0 : ℕ → ℕ → Bool) (w h : ℕ) : BArr :=
  ⟨pow2 h, pow2 w, fun r c => decide (r < h) && decide (c < w) && mask0 r c⟩

/-- The whole FillBiLin constructor for an image of width w and height h:
extend the mask, return an inert instance when the extended mask or its 2x2
binning has fewer than two rows or columns (weights all zero, empty
catalogue), otherwise run the multi-resolution square registration starting
from the once-binned mask at absolute binning factor 4, then the corner,
edge and interior weight passes, then the catalogue scan and coordinate-map
update of initMatrix.  (For 3 ≤ h ≤ 8 or 3 ≤ w ≤ 8 the C++ constructor
throws inside impl::validSquare, so no instance exists there; the model is
total and extends those paths.) -/
def construct (mask0 : ℕ → ℕ → Bool) (w h : ℕ) : Result :=
  let ext := extendMask mask0 w h
  let s0 : BState :=
    { wts := zeroWeights, mask := ext.f, cmap := fun _ => -1, corners := [] }
  if ext.h < 2 ∨ ext.w < 2 then
    ⟨s0.wts, s0.mask, s0.cmap, s0.corners, []⟩
  else
    let m1 := bin2x2 ext
    if m1.h < 2 ∨ m1.w < 2 then
      ⟨s0.wts, s0.mask, s0.cmap, s0.corners, []⟩
    else
      let sqs := (binMask m1.h m1 4).1
      let s1 := registerAll s0 sqs
      let s2 := populateCornerWeights h w s1
      let s3 := populateEdgeWeights h w s2
      let s4 := populateInteriorWeights h w s3
      let coords := scanCoords h w s4.wts.cen
      ⟨s4.wts, s4.mask, initMatrixCmap coords s4.cmap, s4.corners, coords⟩

/-- The linear index coords_.col(0) + h*coords_.col(1) used by
FillBiLin::copySolutionBackIntoImage, the column-major linear offset of
pixel p in an h-row array. -/
def biLinIdx (h : ℕ) (p : Pos) : ℕ := p.1 + h * p.2

/-- Memory address reached through im.reshaped()(ii) for the h-by-w
row-major strided image map: reshaped() enumerates in column-major order, so
ii names pixel (ii mod h, ii / h), whose component lives at memory offset
((ii mod h)*w + ii/h)*stride. -/
def reshapedAddr (h w stride ii : ℕ) : ℕ := (ii % h * w + ii / h) * stride

/-- FillBiLin::copySolutionBackIntoImage, signed integer component: write
rounded x i through im.reshaped()(ii) with ii = r + h*c. -/
def biLinCopyBackSigned (coords : List Pos) (h w stride : ℕ) (x : ℕ → ℚ)
    (mem : ℕ → ℤ) : ℕ → ℤ :=
  writeAll mem
    (coords.enum.map fun e =>
      (reshapedAddr h w stride (biLinIdx h e.2), roundSigned (x e.1)))

/-- FillBiLin::copySolutionBackIntoImage, unsigned integer component: this
branch writes through im(ii), the plain linear (storage-order) access of the
row-major map, i.e. memory offset ii*stride, with the same column-major
index ii = r + h*c. -/
def biLinCopyBackUnsigned (coords : List Pos) (h _w stride : ℕ) (x : ℕ → ℚ)
    (mem : ℕ → ℤ) : ℕ → ℤ :=
  writeAll mem
    (coords.enum.map fun e => (biLinIdx h e.2 * stride, roundUnsigned (x e.1)))

/-- The binning tower: k applications of 2x2 binning, the analysis-level
description of the mask pyramid binMask walks. -/
def binPow : ℕ → BArr → BArr
  | 0, a => a
  | k + 1, a => binPow k (bin2x2 a)

/-- The invariant claimed by the specification: at every pixel the four
off-centre weights sum to the negation of the centre weight. -/
def wtsOffSumOk (wts : Weights) : Prop :=
  ∀ r c : ℕ,
    wts.lft r c + wts.rgt r c + wts.top r c + wts.bot r c = -(wts.cen r c)

/-- All five weights vanish at pixel (r, c). -/
def wtsZeroAt (wts : Weights) (r c : ℕ) : Prop :=
  wts.lft r c = 0 ∧ wts.rgt r c = 0 ∧ wts.top r c = 0 ∧ wts.bot r c = 0 ∧
    wts.cen r c = 0

/-- The inductive invariant of the square-registration phase: the weight
rows balance, the image border (and everything beyond the h-by-w image)
carries no weights, and pixels still set in the working mask carry no
weights. -/
def regInv (h w : ℕ) (s : BState) : Prop :=
  wtsOffSumOk s.wts ∧
  (∀ r c : ℕ, (r = 0 ∨ h ≤ r + 1 ∨ c = 0 ∨ w ≤ c + 1) → wtsZeroAt s.wts r c) ∧
  (∀ r c : ℕ, s.mask r c = true → wtsZeroAt s.wts r c)

end FillBiLin

/-!
Lemmas.  Everything below is proof; the program embedding is complete above.
-/

theorem writeAll_nil {κ α : Type} [DecidableEq κ] (init : κ → α) :
    writeAll init [] = init := rfl

theorem writeAll_cons {κ α : Type} [DecidableEq κ] (init : κ → α) (w : κ × α)
    (ws : List (κ × α)) :
    writeAll init (w :: ws) = writeAll (Function.update init w.1 w.2) ws := rfl

theorem writeAll_not_mem {κ α : Type} [DecidableEq κ] (init : κ → α)
    (ws : List (κ × α)) (k : κ) (h : k ∉ ws.map Prod.fst) :
    writeAll init ws k = init k := by
  induction ws generalizing init with
  | nil => rfl
  | cons w ws ih =>
    simp only [List.map_cons, List.mem_cons] at h
    push_neg at h
    rw [writeAll_cons, ih _ h.2, Function.update_noteq h.1]

theorem writeAll_mem_nodup {κ α : Type} [DecidableEq κ] (init : κ → α)
    (ws : List (κ × α)) (k : κ) (v : α)
    (hnd : (ws.map Prod.fst).Nodup) (hm : (k, v) ∈ ws) :
    writeAll init ws k = v := by
  induction ws generalizing init with
  | nil => cases hm
  | cons w ws ih =>
    simp only [List.map_cons, List.nodup_cons] at hnd
    rcases List.mem_cons.mp hm with h | h
    · subst h
      rw [writeAll_cons, writeAll_not_mem _ _ _ hnd.1, Function.update_same]
    · exact ih _ hnd.2 h

/-- Membership of the i-th enumerated element. -/
theorem mem_enum_get {β : Type} (l : List β) (i : Fin l.length) :
    ((i : ℕ), l.get i) ∈ l.enum := by
  have h : i.1 < l.enum.length := by
    simp only [List.enum_length]
    exact i.2
  have h2 := List.getElem_enum l i.1 h
  have h3 : l.get i = l[(i : ℕ)] := rfl
  rw [h3, ← h2]
  exact List.getElem_mem h

/-- Reading back the i-th write of an enumerated store list whose keys are
pairwise distinct. -/
theorem writeAll_enum_get {β κ α : Type} [DecidableEq κ] (init : κ → α)
    (l : List β) (key : β → κ) (g : ℕ × β → α)
    (hnd : (l.map key).Nodup) (i : Fin l.length) :
    writeAll init (l.enum.map fun e => (key e.2, g e)) (key (l.get i))
      = g ((i : ℕ), l.get i) := by
  apply writeAll_mem_nodup
  · have h1 : ((l.enum.map fun e => (key e.2, g e)).map Prod.fst) = l.map key := by
      rw [List.map_map]
      have h2 : (Prod.fst ∘ fun e : ℕ × β => (key e.2, g e)) = key ∘ Prod.snd := rfl
      rw [h2, ← List.map_map, List.enum_map_snd]
    rwa [h1]
  · exact List.mem_map.mpr ⟨((i : ℕ), l.get i), mem_enum_get l i, rfl⟩

/-- A key written by no element of the store list reads the initial value. -/
theorem writeAll_enum_not_mem {β κ α : Type} [DecidableEq κ] (init : κ → α)
    (l : List β) (key : β → κ) (g : ℕ × β → α) (k : κ)
    (h : k ∉ l.map key) :
    writeAll init (l.enum.map fun e => (key e.2, g e)) k = init k := by
  apply writeAll_not_mem
  have heq : ((l.enum.map fun e => (key e.2, g e)).map Prod.fst) = l.map key := by
    rw [List.map_map]
    have h2 : (Prod.fst ∘ fun e : ℕ × β => (key e.2, g e)) = key ∘ Prod.snd := rfl
    rw [h2, ← List.map_map, List.enum_map_snd]
  rwa [heq]

theorem truncZ_neg (q : ℚ) : truncZ (-q) = -truncZ q := by
  simp [truncZ, Rat.neg_num, Rat.neg_den, Int.neg_tdiv]

theorem truncZ_of_nonneg {q : ℚ} (h : 0 ≤ q) : truncZ q = ⌊q⌋ := by
  have hn : 0 ≤ q.num := Rat.num_nonneg.mpr h
  have hd : (0 : ℤ) ≤ (q.den : ℤ) := Int.ofNat_nonneg _
  have h1 : truncZ q = q.num / (q.den : ℤ) := Int.tdiv_eq_ediv hn hd
  rw [h1, ← Rat.floor_intCast_div_natCast q.num q.den, Rat.num_div_den]

theorem truncZ_of_nonpos {q : ℚ} (h : q ≤ 0) : truncZ q = ⌈q⌉ := by
  have h1 : truncZ q = -truncZ (-q) := by rw [truncZ_neg, neg_neg]
  rw [h1, truncZ_of_nonneg (by linarith), Int.floor_neg, neg_neg]

theorem roundSigned_of_neg {x : ℚ} (h : x < 0) :
    Fill.roundSigned x = truncZ (x - 1/2) := by
  simp [Fill.roundSigned, h]

theorem roundSigned_of_nonneg {x : ℚ} (h : 0 ≤ x) :
    Fill.roundSigned x = truncZ (x + 1/2) := by
  simp [Fill.roundSigned, not_lt.mpr h]

/-- C8: at write-back, with an unsigned integer component the stored value is
trunc(x + 0.5); with a signed integer component the value is rounded half
away from zero (x < 0 yields trunc(x - 0.5), otherwise trunc(x + 0.5)), so
with int8 components -0.3 writes 0, -0.7 writes -1, 0.3 writes 0 and 0.7
writes 1; with a floating-point component the value is the cast (unchanged)
solution value.  The last conjunct checks that the copy-back pass stores
exactly these values at each catalogue entry's address. -/
theorem claim_C8 :
    (∀ x : ℚ, Fill.roundUnsigned x = truncZ (x + 1/2)) ∧
    (∀ x : ℚ, x < 0 → Fill.roundSigned x = truncZ (x - 1/2)) ∧
    (∀ x : ℚ, 0 ≤ x → Fill.roundSigned x = truncZ (x + 1/2)) ∧
    Fill.roundSigned (-(3/10)) = 0 ∧ Fill.roundSigned (-(7/10)) = -1 ∧
    Fill.roundSigned (3/10) = 0 ∧ Fill.roundSigned (7/10) = 1 ∧
    (∀ (coords : List Fill.Pos) (W stride : ℕ) (x : ℕ → ℚ) (memZ : ℕ → ℤ)
       (memQ : ℕ → ℚ),
       ((coords.map fun p => (p.1 * W + p.2) * stride).Nodup) →
       ∀ i : Fin coords.length,
       Fill.copyBackUnsigned coords W stride x memZ
           (((coords.get i).1 * W + (coords.get i).2) * stride)
         = truncZ (x i + 1/2) ∧
       Fill.copyBackSigned coords W stride x memZ
           (((coords.get i).1 * W + (coords.get i).2) * stride)
         = Fill.roundSigned (x i) ∧
       Fill.copyBackFloat coords W stride x memQ
           (((coords.get i).1 * W + (coords.get i).2) * stride)
         = x i) := by
  refine ⟨fun x => rfl, fun x h => roundSigned_of_neg h,
    fun x h => roundSigned_of_nonneg h,
    ?_, ?_, ?_, ?_,
    fun coords W stride x memZ memQ hnd i => ⟨?_, ?_, ?_⟩⟩
  · rw [roundSigned_of_neg (by norm_num), truncZ_of_nonpos (by norm_num)]
    norm_num
  · rw [roundSigned_of_neg (by norm_num), truncZ_of_nonpos (by norm_num)]
    norm_num [Int.ceil_eq_iff]
  · rw [roundSigned_of_nonneg (by norm_num), truncZ_of_nonneg (by norm_num)]
    norm_num
  · rw [roundSigned_of_nonneg (by norm_num), truncZ_of_nonneg (by norm_num)]
    norm_num [Int.floor_eq_iff]
  · exact writeAll_enum_get memZ coords (fun p => (p.1 * W + p.2) * stride)
      (fun e => Fill.roundUnsigned (x e.1)) hnd i
  · exact writeAll_enum_get memZ coords (fun p => (p.1 * W + p.2) * stride)
      (fun e => Fill.roundSigned (x e.1)) hnd i
  · exact writeAll_enum_get memQ coords (fun p => (p.1 * W + p.2) * stride)
      (fun e => x e.1) hnd i

/-- Witness for C8 at concrete inputs. -/
theorem claim_C8_witness :
    ((-(7:ℚ)/10 < 0) ∧ Fill.roundSigned (-(7:ℚ)/10) = truncZ (-(7:ℚ)/10 - 1/2)) ∧
    (((0:ℚ) ≤ (7:ℚ)/10) ∧ Fill.roundSigned ((7:ℚ)/10) = truncZ ((7:ℚ)/10 + 1/2)) ∧
    Fill.copyBackSigned [(1,1)] 3 1 (fun _ => 1/2) (fun _ => 0) 4
      = Fill.roundSigned (1/2) :=
  ⟨⟨by norm_num, claim_C8.2.1 _ (by norm_num)⟩,
   ⟨by norm_num, claim_C8.2.2.1 _ (by norm_num)⟩,
   (claim_C8.2.2.2.2.2.2.2 [(1,1)] 3 1 (fun _ => 1/2) (fun _ => 0) (fun _ => 0)
      (by decide) ⟨0, by decide⟩).2.1⟩

/-- Replacing each element of a list by itself through filterMap is the
identity. -/
theorem filterMap_eq_self_of_mem {α : Type} {f : α → Option α} {l : List α}
    (h : ∀ a ∈ l, f a = some a) : l.filterMap f = l := by
  induction l with
  | nil => rfl
  | cons a l ih =>
    rw [List.filterMap_cons, h a (List.mem_cons_self a l),
      ih fun b hb => h b (List.mem_cons_of_mem a hb)]

namespace Fill

theorem mem_findCoords {mask : ℕ → ℤ} {W H stride : ℕ} {p : Pos} :
    p ∈ findCoords mask W H stride ↔
      1 ≤ p.1 ∧ p.1 + 2 ≤ H ∧ 1 ≤ p.2 ∧ p.2 + 2 ≤ W ∧
        mask ((p.1 * W + p.2) * stride) ≠ 0 := by
  obtain ⟨r, c⟩ := p
  simp only [findCoords, List.mem_flatMap, List.mem_filterMap, List.mem_range]
  constructor
  · rintro ⟨r0, hr0, c0, hc0, hif⟩
    split_ifs at hif with hcond
    injection hif with h12
    injection h12 with h1 h2
    subst h1; subst h2
    exact hcond
  · rintro ⟨h1, h2, h3, h4, h5⟩
    refine ⟨r, by omega, c, by omega, ?_⟩
    rw [if_pos ⟨h1, h2, h3, h4, h5⟩]

theorem findCoords_nodup (mask : ℕ → ℤ) (W H stride : ℕ) :
    (findCoords mask W H stride).Nodup := by
  rw [findCoords, List.nodup_flatMap]
  constructor
  · intro r _
    refine List.Nodup.filterMap ?_ (List.nodup_range W)
    intro c1 c2 b hb1 hb2
    rw [Option.mem_def] at hb1 hb2
    split_ifs at hb1 hb2 with h1 h2
    injection Option.some.inj hb1 ▸ Option.some.inj hb2 with e1 e2
    exact e2.symm
  · refine (List.pairwise_lt_range H).imp ?_
    intro r1 r2 hlt q hq1 hq2
    have e1 : q.1 = r1 := by
      obtain ⟨c0, _, hif⟩ := List.mem_filterMap.mp hq1
      split_ifs at hif with hcond
      rw [← Option.some.inj hif]
    have e2 : q.1 = r2 := by
      obtain ⟨c0, _, hif⟩ := List.mem_filterMap.mp hq2
      split_ifs at hif with hcond
      rw [← Option.some.inj hif]
    omega

theorem fillCoords_eq_findCoords (mask : ℕ → ℤ) (W H stride : ℕ) :
    fillCoords mask W H stride = findCoords mask W H stride := by
  rw [fillCoords, initCoords, List.filterMap_map]
  refine filterMap_eq_self_of_mem ?_
  intro p hp
  obtain ⟨h1, h2, h3, h4, _⟩ := mem_findCoords.mp hp
  have hcond : 1 ≤ ((p.1 : ℤ)) ∧ (p.1 : ℤ) ≤ (H : ℤ) - 2 ∧
      1 ≤ ((p.2 : ℤ)) ∧ (p.2 : ℤ) ≤ (W : ℤ) - 2 := by
    constructor
    · exact_mod_cast h1
    constructor
    · omega
    constructor
    · exact_mod_cast h3
    · omega
  simp only [Function.comp]
  rw [if_pos hcond]
  simp

theorem fillCoords_nodup (mask : ℕ → ℤ) (W H stride : ℕ) :
    (fillCoords mask W H stride).Nodup := by
  rw [fillCoords_eq_findCoords]
  exact findCoords_nodup mask W H stride

theorem coordsMap_get {coords : List Pos} (hnd : coords.Nodup)
    (i : Fin coords.length) :
    coordsMap coords (coords.get i) = i :=
  writeAll_enum_get _ coords (fun p => p) (fun e => (e.1 : ℤ))
    (by simpa using hnd) i

theorem coordsMap_not_mem {coords : List Pos} {p : Pos} (h : p ∉ coords) :
    coordsMap coords p = -1 :=
  writeAll_enum_not_mem _ coords (fun p => p) (fun e => (e.1 : ℤ)) p
    (by simpa using h)

theorem coordsMap_mem {coords : List Pos} (hnd : coords.Nodup) {p : Pos}
    (h : p ∈ coords) :
    ∃ i : Fin coords.length, coords.get i = p ∧ coordsMap coords p = i := by
  obtain ⟨i, hi⟩ := List.mem_iff_get.mp h
  exact ⟨i, hi, by rw [← hi, coordsMap_get hnd]⟩

theorem coordsMap_nonneg_iff {coords : List Pos} (hnd : coords.Nodup) (p : Pos) :
    0 ≤ coordsMap coords p ↔ p ∈ coords := by
  constructor
  · intro h
    by_contra hc
    rw [coordsMap_not_mem hc] at h
    omega
  · intro h
    obtain ⟨i, _, hv⟩ := coordsMap_mem hnd h
    rw [hv]
    exact Int.ofNat_nonneg _

/-- The value of nVal at a catalogue position is that position's catalogue
offset; at any other position it is the negative row-major encoding. -/
theorem nVal_spec {coords : List Pos} (hnd : coords.Nodup) (W : ℕ) (q : Pos) :
    (q ∈ coords → ∃ j : Fin coords.length,
        coords.get j = q ∧ nVal (coordsMap coords) W q.1 q.2 = j) ∧
    (q ∉ coords → nVal (coordsMap coords) W q.1 q.2
        = -((q.2 : ℤ) + (q.1 : ℤ) * (W : ℤ)) - 1) := by
  constructor
  · intro h
    obtain ⟨j, hj, hv⟩ := coordsMap_mem hnd h
    refine ⟨j, hj, ?_⟩
    rw [nVal]
    have hq : (q.1, q.2) = q := rfl
    rw [hq, hv, if_neg (by omega)]
  · intro h
    rw [nVal]
    have hq : (q.1, q.2) = q := rfl
    rw [hq, coordsMap_not_mem h, if_pos rfl]
    ring

/-- Indexing the neighbour table. -/
theorem lrtb_getD {coords : List Pos} {W : ℕ} {i : ℕ}
    (hi : i < coords.length) :
    (lrtb coords W).getD i ⟨0, 0, 0, 0⟩ =
      { lft := nVal (coordsMap coords) W (coords.getD i (0, 0)).1
          ((coords.getD i (0, 0)).2 - 1)
        rgt := nVal (coordsMap coords) W (coords.getD i (0, 0)).1
          ((coords.getD i (0, 0)).2 + 1)
        top := nVal (coordsMap coords) W ((coords.getD i (0, 0)).1 - 1)
          (coords.getD i (0, 0)).2
        bot := nVal (coordsMap coords) W ((coords.getD i (0, 0)).1 + 1)
          (coords.getD i (0, 0)).2 } := by
  have hl : i < (lrtb coords W).length := by
    simpa [lrtb] using hi
  rw [List.getD_eq_getElem _ _ hl, List.getD_eq_getElem _ _ hi]
  simp [lrtb]

theorem sum_flatMap {α : Type} (l : List α) (h : α → List ℚ) :
    (l.flatMap h).sum = (l.map fun a => (h a).sum).sum := by
  induction l with
  | nil => rfl
  | cons a l ih => simp [List.flatMap_cons, List.sum_append, ih]

theorem bTerm_eq (im : ℕ → ℚ) (e : ℤ) :
    bTerm im e = if e < 0 then im ((-e - 1).toNat) else 0 := by
  rw [bTerm]
  split_ifs with h
  · rw [one_mul]
  · rw [zero_mul]

/-- The right-hand side assembled by the branchless code of Fill::solve is
the boundary sum described by the specification. -/
theorem bRow_eq_spec (im : ℕ → ℚ) (t : Nbrs) :
    bRow im t = specBoundarySum im t := by
  rw [bRow, specBoundarySum, bTerm_eq, bTerm_eq, bTerm_eq, bTerm_eq]

/-- Triplets of a foreign row never contribute to row i. -/
theorem tripletsRow_zero {i j k : ℕ} (hki : k ≠ i) (t : Nbrs) :
    ((tripletsRow k t).filterMap (sel i j)) = [] := by
  rw [tripletsRow]
  simp only [sel, List.filterMap_cons, List.filterMap_append]
  rw [if_neg (by simp [hki])]
  split_ifs <;> simp [sel, hki]

/-- The contribution of row i's triplets to entry (i, j): the diagonal 4
when j = i plus one rowTerm per neighbour code value. -/
theorem tripletsRow_sum (i j : ℕ) (t : Nbrs) :
    (((tripletsRow i t).filterMap (sel i j))).sum
      = (if j = i then (4 : ℚ) else 0)
        + (rowTerm t.lft j + rowTerm t.rgt j + rowTerm t.top j + rowTerm t.bot j) := by
  have hL : ∀ e : ℤ,
      (((if 0 ≤ e then [(i, e.toNat, (-1 : ℚ))] else []).filterMap (sel i j))).sum
        = rowTerm e j := by
    intro e
    rw [rowTerm]
    by_cases h1 : 0 ≤ e
    · rw [if_pos h1]
      by_cases h2 : e.toNat = j
      · rw [if_pos ⟨h1, h2⟩]
        simp [sel, h2]
      · rw [if_neg (by tauto)]
        simp [sel, h2]
    · rw [if_neg h1, if_neg (by tauto)]
      rfl
  rw [tripletsRow]
  by_cases hji : j = i
  · have hhead : sel i j (i, i, 4) = some 4 := by
      simp [sel, hji]
    rw [List.filterMap_cons_some hhead, List.sum_cons, List.filterMap_append,
      List.filterMap_append, List.filterMap_append, List.sum_append,
      List.sum_append, List.sum_append, hL, hL, hL, hL, if_pos hji]
  · have hhead : sel i j (i, i, 4) = none := by
      simp only [sel]
      rw [if_neg]
      rintro ⟨-, h2⟩
      exact hji h2.symm
    rw [List.filterMap_cons_none hhead, List.filterMap_append,
      List.filterMap_append, List.filterMap_append, List.sum_append,
      List.sum_append, List.sum_append, hL, hL, hL, hL, if_neg hji, zero_add]

/-- Collapsing the enumerated sum to the single non-vanishing row. -/
theorem sum_enumFrom_single {γ : Type} (L : List γ) (f : ℕ × γ → ℚ) (i : ℕ) :
    ∀ (n : ℕ), n ≤ i → ∀ (hi : i - n < L.length),
    (∀ e ∈ List.enumFrom n L, e.1 ≠ i → f e = 0) →
    ((List.enumFrom n L).map f).sum = f (i, L.get ⟨i - n, hi⟩) := by
  induction L with
  | nil => intro n _ hi; simp at hi
  | cons a L ih =>
    intro n hn hi hz
    rw [List.enumFrom_cons, List.map_cons, List.sum_cons]
    by_cases hni : n = i
    · subst hni
      have h0 : n - n = 0 := by omega
      have hrest : ((List.enumFrom (n + 1) L).map f).sum = 0 := by
        refine List.sum_eq_zero ?_
        intro x hx
        obtain ⟨e, he, hfe⟩ := List.mem_map.mp hx
        obtain ⟨k, t⟩ := e
        have hb := List.mem_enumFrom he
        rw [← hfe]
        exact hz (k, t) (List.mem_cons_of_mem _ he) (by omega)
      rw [hrest, add_zero]
      congr 1
      ext
      · rfl
      · simp [h0]
    · have hlt : n < i := lt_of_le_of_ne hn hni
      have hz1 : f (n, a) = 0 :=
        hz (n, a) (List.mem_cons_self _ _) (by omega)
      have hi2 : i - (n + 1) < L.length := by
        simp only [List.length_cons] at hi
        omega
      rw [hz1, zero_add]
      rw [ih (n + 1) (by omega) hi2
        (fun e he hne => hz e (List.mem_cons_of_mem _ he) hne)]
      congr 1
      have hs : i - n = (i - (n + 1)) + 1 := by omega
      ext
      · rfl
      · simp only [hs, List.get_eq_getElem, List.getElem_cons_succ]

/-- The matrix entry (i, j) reduces to the contribution of row i alone. -/
theorem aMat_eq_row {coords : List Pos} {W i : ℕ} (j : ℕ)
    (hi : i < coords.length) :
    aMat coords W i j =
      (((tripletsRow i ((lrtb coords W).getD i ⟨0, 0, 0, 0⟩)).filterMap
        (sel i j))).sum := by
  have hlen : i < (lrtb coords W).length := by simpa [lrtb] using hi
  rw [aMat, triplets, List.filterMap_flatMap, sum_flatMap, List.enum_eq_enumFrom]
  have hz : ∀ e ∈ List.enumFrom 0 (lrtb coords W), e.1 ≠ i →
      (((tripletsRow e.1 e.2).filterMap (sel i j))).sum = 0 := by
    intro e _ hne
    rw [tripletsRow_zero hne]
    rfl
  have hs := sum_enumFrom_single (lrtb coords W)
    (fun e => (((tripletsRow e.1 e.2).filterMap (sel i j))).sum) i 0
    (by omega) (by simpa using hlen) hz
  rw [hs]
  rw [List.getD_eq_getElem _ _ hlen]
  rfl

/-- The four cardinal neighbours of an interior pixel are pairwise distinct
and distinct from the pixel. -/
theorem nbrs_distinct {p : Pos} (h1 : 1 ≤ p.1) (h2 : 1 ≤ p.2) :
    ((p.1, p.2 - 1) : Pos) ≠ (p.1, p.2 + 1) ∧
    ((p.1, p.2 - 1) : Pos) ≠ (p.1 - 1, p.2) ∧
    ((p.1, p.2 - 1) : Pos) ≠ (p.1 + 1, p.2) ∧
    ((p.1, p.2 + 1) : Pos) ≠ (p.1 - 1, p.2) ∧
    ((p.1, p.2 + 1) : Pos) ≠ (p.1 + 1, p.2) ∧
    ((p.1 - 1, p.2) : Pos) ≠ (p.1 + 1, p.2) ∧
    ((p.1, p.2 - 1) : Pos) ≠ p ∧ ((p.1, p.2 + 1) : Pos) ≠ p ∧
    ((p.1 - 1, p.2) : Pos) ≠ p ∧ ((p.1 + 1, p.2) : Pos) ≠ p := by
  obtain ⟨r, c⟩ := p
  simp only [Prod.mk.injEq, ne_eq, not_and] at h1 h2 ⊢
  refine ⟨?_, ?_, ?_, ?_, ?_, ?_, ?_, ?_, ?_, ?_⟩ <;> (intro ha hb; omega)

/-- A neighbour code value aimed at a position different from coords[i]
never contributes to column i. -/
theorem rowTerm_ne_self {coords : List Pos} (hnd : coords.Nodup) {W i : ℕ}
    (hi : i < coords.length) (q : Pos) (hq : q ≠ coords.get ⟨i, hi⟩) :
    rowTerm (nVal (coordsMap coords) W q.1 q.2) i = 0 := by
  rw [rowTerm]
  by_cases hm : q ∈ coords
  · obtain ⟨j, hj, hv⟩ := (nVal_spec hnd W q).1 hm
    rw [hv, if_neg]
    rintro ⟨_, hb⟩
    apply hq
    rw [← hj]
    congr 1
    refine Fin.ext ?_
    simpa using hb
  · rw [(nVal_spec hnd W q).2 hm, if_neg]
    rintro ⟨ha, _⟩
    have : (0 : ℤ) ≤ (q.2 : ℤ) + (q.1 : ℤ) * (W : ℤ) := by positivity
    omega

/-- Two distinct neighbour positions cannot both be encoded as the same
unknown j. -/
theorem rowTerm_unique {coords : List Pos} (hnd : coords.Nodup) {W : ℕ}
    {q1 q2 : Pos} (hne : q1 ≠ q2) (j : ℕ) :
    ¬(0 ≤ nVal (coordsMap coords) W q1.1 q1.2 ∧
        (nVal (coordsMap coords) W q1.1 q1.2).toNat = j ∧
      0 ≤ nVal (coordsMap coords) W q2.1 q2.2 ∧
        (nVal (coordsMap coords) W q2.1 q2.2).toNat = j) := by
  rintro ⟨ha1, hb1, ha2, hb2⟩
  have hm1 : q1 ∈ coords := by
    by_contra hc
    rw [(nVal_spec hnd W q1).2 hc] at ha1
    have : (0 : ℤ) ≤ (q1.2 : ℤ) + (q1.1 : ℤ) * (W : ℤ) := by positivity
    omega
  have hm2 : q2 ∈ coords := by
    by_contra hc
    rw [(nVal_spec hnd W q2).2 hc] at ha2
    have : (0 : ℤ) ≤ (q2.2 : ℤ) + (q2.1 : ℤ) * (W : ℤ) := by positivity
    omega
  obtain ⟨j1, hj1, hv1⟩ := (nVal_spec hnd W q1).1 hm1
  obtain ⟨j2, hj2, hv2⟩ := (nVal_spec hnd W q2).1 hm2
  rw [hv1] at hb1
  rw [hv2] at hb2
  have hj12 : (j1 : ℕ) = (j2 : ℕ) := by omega
  apply hne
  rw [← hj1, ← hj2]
  congr 1
  exact Fin.ext hj12

end Fill

/-- The right-hand side for a singleton catalogue whose pixel is interior:
all four neighbours are boundary, so b[0] is the plain sum of the four
neighbouring image values. -/
theorem bVal_singleton {W : ℕ} {r c : ℕ} (h1 : 1 ≤ r) (h2 : 1 ≤ c)
    (im : ℕ → ℚ) :
    Fill.bVal [(r, c)] W im 0 =
      im ((c - 1) + r * W) + im ((c + 1) + r * W)
        + im (c + (r - 1) * W) + im (c + (r + 1) * W) := by
  have hnd : ([((r : ℕ), (c : ℕ))] : List Fill.Pos).Nodup := List.nodup_singleton _
  have hd := Fill.nbrs_distinct (p := (r, c)) h1 h2
  have hv : ∀ q : Fill.Pos, q ≠ (r, c) →
      Fill.nVal (Fill.coordsMap [(r, c)]) W q.1 q.2
        = -((q.2 : ℤ) + (q.1 : ℤ) * (W : ℤ)) - 1 := by
    intro q hq
    exact (Fill.nVal_spec hnd W q).2 (by simpa using hq)
  have hdecode : ∀ q : Fill.Pos,
      (-(-((q.2 : ℤ) + (q.1 : ℤ) * (W : ℤ)) - 1) - 1).toNat = q.2 + q.1 * W := by
    intro q
    have hcast : (-(-((q.2 : ℤ) + (q.1 : ℤ) * (W : ℤ)) - 1) - 1)
        = ((q.2 + q.1 * W : ℕ) : ℤ) := by
      push_cast
      ring
    rw [hcast, Int.toNat_natCast]
  have hneg : ∀ q : Fill.Pos, -((q.2 : ℤ) + (q.1 : ℤ) * (W : ℤ)) - 1 < 0 := by
    intro q
    have hge : (0 : ℤ) ≤ (q.2 : ℤ) + (q.1 : ℤ) * (W : ℤ) := by positivity
    omega
  rw [Fill.bVal, Fill.lrtb_getD (by simp), Fill.bRow_eq_spec,
    Fill.specBoundarySum]
  simp only [List.getD_cons_zero]
  have e1 := hv ((r, c).1, (r, c).2 - 1) (hd.2.2.2.2.2.2.1)
  have e2 := hv ((r, c).1, (r, c).2 + 1) (hd.2.2.2.2.2.2.2.1)
  have e3 := hv ((r, c).1 - 1, (r, c).2) (hd.2.2.2.2.2.2.2.2.1)
  have e4 := hv ((r, c).1 + 1, (r, c).2) (hd.2.2.2.2.2.2.2.2.2)
  dsimp only at e1 e2 e3 e4
  rw [e1, e2, e3, e4, if_pos (hneg ((r, c).1, (r, c).2 - 1)),
    if_pos (hneg ((r, c).1, (r, c).2 + 1)),
    if_pos (hneg ((r, c).1 - 1, (r, c).2)),
    if_pos (hneg ((r, c).1 + 1, (r, c).2))]
  rw [hdecode ((r, c).1, (r, c).2 - 1), hdecode ((r, c).1, (r, c).2 + 1),
    hdecode ((r, c).1 - 1, (r, c).2), hdecode ((r, c).1 + 1, (r, c).2)]

/-- The assembled matrix for a singleton catalogue whose pixel is interior
is the 1-by-1 matrix (4). -/
theorem aMat_singleton {W : ℕ} {r c : ℕ} (h1 : 1 ≤ r) (h2 : 1 ≤ c) :
    Fill.aMat [(r, c)] W 0 0 = 4 := by
  have hnd : ([((r : ℕ), (c : ℕ))] : List Fill.Pos).Nodup := List.nodup_singleton _
  have hd := Fill.nbrs_distinct (p := (r, c)) h1 h2
  have hz : ∀ q : Fill.Pos, q ≠ (r, c) →
      Fill.rowTerm (Fill.nVal (Fill.coordsMap [(r, c)]) W q.1 q.2) 0 = 0 := by
    intro q hq
    refine Fill.rowTerm_ne_self hnd (by simp) q ?_
    simpa using hq
  rw [Fill.aMat_eq_row 0 (by simp), Fill.tripletsRow_sum, if_pos rfl,
    Fill.lrtb_getD (by simp)]
  simp only [List.getD_cons_zero]
  have z1 := hz ((r, c).1, (r, c).2 - 1) (hd.2.2.2.2.2.2.1)
  have z2 := hz ((r, c).1, (r, c).2 + 1) (hd.2.2.2.2.2.2.2.1)
  have z3 := hz ((r, c).1 - 1, (r, c).2) (hd.2.2.2.2.2.2.2.2.1)
  have z4 := hz ((r, c).1 + 1, (r, c).2) (hd.2.2.2.2.2.2.2.2.2)
  dsimp only at z1 z2 z3 z4
  rw [z1, z2, z3, z4]
  norm_num

set_option maxHeartbeats 1000000 in
/-- C2: for every mask, the exact solver assembles an N-by-N matrix whose
row i has diagonal entry +4 and an off-diagonal entry -1 at exactly the
columns j for which some neighbour of catalogue entry i is encoded as
unknown j (boundary-encoded neighbours are absent from the matrix); and the
right-hand side b[i] is the sum of the image-component values at the
offsets decoded from row i's boundary-encoded (negative) neighbour values,
unknown-encoded neighbours contributing nothing. -/
theorem claim_C2 :
    (∀ (mask : ℕ → ℤ) (W H stride : ℕ) (i : ℕ),
      i < (Fill.fillCoords mask W H stride).length →
      (Fill.aMat (Fill.fillCoords mask W H stride) W i i = 4 ∧
       ∀ j : ℕ, j ≠ i →
         Fill.aMat (Fill.fillCoords mask W H stride) W i j =
           (let t := (Fill.lrtb (Fill.fillCoords mask W H stride) W).getD i
              ⟨0, 0, 0, 0⟩
            if (0 ≤ t.lft ∧ t.lft.toNat = j) ∨ (0 ≤ t.rgt ∧ t.rgt.toNat = j) ∨
               (0 ≤ t.top ∧ t.top.toNat = j) ∨ (0 ≤ t.bot ∧ t.bot.toNat = j)
            then -1 else 0))) ∧
    (∀ (coords : List Fill.Pos) (W : ℕ) (im : ℕ → ℚ) (i : ℕ),
      Fill.bVal coords W im i =
        Fill.specBoundarySum im ((Fill.lrtb coords W).getD i ⟨0, 0, 0, 0⟩)) := by
  constructor
  · intro mask W H stride i hi
    have hnd := Fill.fillCoords_nodup mask W H stride
    have hpmem : (Fill.fillCoords mask W H stride).getD i (0, 0) ∈
        Fill.fillCoords mask W H stride := by
      rw [List.getD_eq_getElem _ _ hi]
      exact List.getElem_mem hi
    have hpmem2 : (Fill.fillCoords mask W H stride).getD i (0, 0) ∈
        Fill.findCoords mask W H stride := by
      rw [← Fill.fillCoords_eq_findCoords]
      exact hpmem
    obtain ⟨hb1, hb2, hb3, hb4, -⟩ := Fill.mem_findCoords.mp hpmem2
    have hpget : (Fill.fillCoords mask W H stride).getD i (0, 0)
        = (Fill.fillCoords mask W H stride).get ⟨i, hi⟩ := by
      rw [List.getD_eq_getElem _ _ hi]
      rfl
    have hd := Fill.nbrs_distinct hb1 hb3
    constructor
    · rw [Fill.aMat_eq_row i hi, Fill.tripletsRow_sum, if_pos rfl,
        Fill.lrtb_getD hi]
      dsimp only
      have z1 := Fill.rowTerm_ne_self hnd (W := W) hi
        (((Fill.fillCoords mask W H stride).getD i (0, 0)).1,
          ((Fill.fillCoords mask W H stride).getD i (0, 0)).2 - 1)
        (fun h => hd.2.2.2.2.2.2.1 (h.trans hpget.symm))
      have z2 := Fill.rowTerm_ne_self hnd (W := W) hi
        (((Fill.fillCoords mask W H stride).getD i (0, 0)).1,
          ((Fill.fillCoords mask W H stride).getD i (0, 0)).2 + 1)
        (fun h => hd.2.2.2.2.2.2.2.1 (h.trans hpget.symm))
      have z3 := Fill.rowTerm_ne_self hnd (W := W) hi
        ((((Fill.fillCoords mask W H stride).getD i (0, 0)).1 - 1),
          ((Fill.fillCoords mask W H stride).getD i (0, 0)).2)
        (fun h => hd.2.2.2.2.2.2.2.2.1 (h.trans hpget.symm))
      have z4 := Fill.rowTerm_ne_self hnd (W := W) hi
        ((((Fill.fillCoords mask W H stride).getD i (0, 0)).1 + 1),
          ((Fill.fillCoords mask W H stride).getD i (0, 0)).2)
        (fun h => hd.2.2.2.2.2.2.2.2.2 (h.trans hpget.symm))
      dsimp only at z1 z2 z3 z4
      rw [z1, z2, z3, z4]
      norm_num
    · intro j hji
      rw [Fill.aMat_eq_row j hi, Fill.tripletsRow_sum,
        if_neg (fun h => hji h), zero_add, Fill.lrtb_getD hi]
      dsimp only
      rw [Fill.rowTerm, Fill.rowTerm, Fill.rowTerm, Fill.rowTerm]
      have u12 := Fill.rowTerm_unique hnd (W := W) hd.1 j
      have u13 := Fill.rowTerm_unique hnd (W := W) hd.2.1 j
      have u14 := Fill.rowTerm_unique hnd (W := W) hd.2.2.1 j
      have u23 := Fill.rowTerm_unique hnd (W := W) hd.2.2.2.1 j
      have u24 := Fill.rowTerm_unique hnd (W := W) hd.2.2.2.2.1 j
      have u34 := Fill.rowTerm_unique hnd (W := W) hd.2.2.2.2.2.1 j
      dsimp only at u12 u13 u14 u23 u24 u34
      by_cases h1 : 0 ≤ Fill.nVal
          (Fill.coordsMap (Fill.fillCoords mask W H stride)) W
          ((Fill.fillCoords mask W H stride).getD i (0, 0)).1
          (((Fill.fillCoords mask W H stride).getD i (0, 0)).2 - 1) ∧
          (Fill.nVal (Fill.coordsMap (Fill.fillCoords mask W H stride)) W
            ((Fill.fillCoords mask W H stride).getD i (0, 0)).1
            (((Fill.fillCoords mask W H stride).getD i (0, 0)).2 - 1)).toNat = j
      · have n2 : _ := fun h => u12 ⟨h1.1, h1.2, And.left h, And.right h⟩
        have n3 : _ := fun h => u13 ⟨h1.1, h1.2, And.left h, And.right h⟩
        have n4 : _ := fun h => u14 ⟨h1.1, h1.2, And.left h, And.right h⟩
        rw [if_pos h1, if_neg n2, if_neg n3, if_neg n4, if_pos (Or.inl h1)]
        norm_num
      · rw [if_neg h1]
        by_cases h2 : 0 ≤ Fill.nVal
            (Fill.coordsMap (Fill.fillCoords mask W H stride)) W
            ((Fill.fillCoords mask W H stride).getD i (0, 0)).1
            (((Fill.fillCoords mask W H stride).getD i (0, 0)).2 + 1) ∧
            (Fill.nVal (Fill.coordsMap (Fill.fillCoords mask W H stride)) W
              ((Fill.fillCoords mask W H stride).getD i (0, 0)).1
              (((Fill.fillCoords mask W H stride).getD i (0, 0)).2 + 1)).toNat = j
        · have n3 : _ := fun h => u23 ⟨h2.1, h2.2, And.left h, And.right h⟩
          have n4 : _ := fun h => u24 ⟨h2.1, h2.2, And.left h, And.right h⟩
          rw [if_pos h2, if_neg n3, if_neg n4, if_pos (Or.inr (Or.inl h2))]
          norm_num
        · rw [if_neg h2]
          by_cases h3 : 0 ≤ Fill.nVal
              (Fill.coordsMap (Fill.fillCoords mask W H stride)) W
              (((Fill.fillCoords mask W H stride).getD i (0, 0)).1 - 1)
              ((Fill.fillCoords mask W H stride).getD i (0, 0)).2 ∧
              (Fill.nVal (Fill.coordsMap (Fill.fillCoords mask W H stride)) W
                (((Fill.fillCoords mask W H stride).getD i (0, 0)).1 - 1)
                ((Fill.fillCoords mask W H stride).getD i (0, 0)).2).toNat = j
          · have n4 : _ := fun h => u34 ⟨h3.1, h3.2, And.left h, And.right h⟩
            rw [if_pos h3, if_neg n4, if_pos (Or.inr (Or.inr (Or.inl h3)))]
            norm_num
          · rw [if_neg h3]
            by_cases h4 : 0 ≤ Fill.nVal
                (Fill.coordsMap (Fill.fillCoords mask W H stride)) W
                (((Fill.fillCoords mask W H stride).getD i (0, 0)).1 + 1)
                ((Fill.fillCoords mask W H stride).getD i (0, 0)).2 ∧
                (Fill.nVal (Fill.coordsMap (Fill.fillCoords mask W H stride)) W
                  (((Fill.fillCoords mask W H stride).getD i (0, 0)).1 + 1)
                  ((Fill.fillCoords mask W H stride).getD i (0, 0)).2).toNat = j
            · rw [if_pos h4, if_pos (Or.inr (Or.inr (Or.inr h4)))]
              norm_num
            · rw [if_neg h4, if_neg (fun hor => hor.elim (fun ha => h1 ha)
                (fun hor2 => hor2.elim (fun ha => h2 ha)
                  (fun hor3 => hor3.elim (fun ha => h3 ha) (fun ha => h4 ha))))]
              norm_num
  · intro coords W im i
    rw [Fill.bVal, Fill.bRow_eq_spec]

/-- Witness for C2 at the single-unknown 3-by-3 mask. -/
theorem claim_C2_witness :
    (0 < (Fill.fillCoords (fun k => if k = 4 then 1 else 0) 3 3 1).length) ∧
    Fill.aMat (Fill.fillCoords (fun k => if k = 4 then 1 else 0) 3 3 1) 3 0 0 = 4 ∧
    Fill.bVal (Fill.fillCoords (fun k => if k = 4 then 1 else 0) 3 3 1) 3
        (fun k => ((k : ℚ))) 0 =
      Fill.specBoundarySum (fun k => ((k : ℚ)))
        ((Fill.lrtb (Fill.fillCoords (fun k => if k = 4 then 1 else 0) 3 3 1) 3).getD
          0 ⟨0, 0, 0, 0⟩) :=
  ⟨by decide,
   (claim_C2.1 (fun k => if k = 4 then 1 else 0) 3 3 1 0 (by decide)).1,
   claim_C2.2 (Fill.fillCoords (fun k => if k = 4 then 1 else 0) 3 3 1) 3
     (fun k => ((k : ℚ))) 0⟩

/-- C1: for W = H = 3, mask [[0,0,0],[0,1,0],[0,0,0]] and image
[[1,2,3],[4,0,6],[7,8,9]], the exact solver's catalogue is [(1,1)], the
returned solution vector is [5] (any exact solution of the assembled system
has that value), and after write-back the integer image is
[[1,2,3],[4,5,6],[7,8,9]]; and in general, for every mask whose catalogue is
a single isolated interior unknown, the solved value is the mean of the four
neighbouring image values. -/
theorem claim_C1 :
    Fill.fillCoords (fun k => if k = 4 then 1 else 0) 3 3 1 = [(1, 1)] ∧
    (∀ x : ℕ → ℚ,
      Fill.isSolution (Fill.fillCoords (fun k => if k = 4 then 1 else 0) 3 3 1) 3
        (fun k => (([1, 2, 3, 4, 0, 6, 7, 8, 9] : List ℚ).getD k 0)) x →
      x 0 = 5) ∧
    (∀ k : ℕ, k < 9 →
      Fill.copyBackSigned (Fill.fillCoords (fun k => if k = 4 then 1 else 0) 3 3 1)
          3 1 (fun _ => 5)
          (fun k => (([1, 2, 3, 4, 0, 6, 7, 8, 9] : List ℤ).getD k 0)) k
        = ([1, 2, 3, 4, 5, 6, 7, 8, 9] : List ℤ).getD k 0) ∧
    (∀ (mask : ℕ → ℤ) (W H stride : ℕ) (r c : ℕ) (im : ℕ → ℚ) (x : ℕ → ℚ),
      Fill.fillCoords mask W H stride = [(r, c)] →
      Fill.isSolution (Fill.fillCoords mask W H stride) W im x →
      x 0 = (im ((c - 1) + r * W) + im ((c + 1) + r * W)
              + im (c + (r - 1) * W) + im (c + (r + 1) * W)) / 4) := by
  have hgen : ∀ (mask : ℕ → ℤ) (W H stride : ℕ) (r c : ℕ) (im : ℕ → ℚ)
      (x : ℕ → ℚ),
      Fill.fillCoords mask W H stride = [(r, c)] →
      Fill.isSolution (Fill.fillCoords mask W H stride) W im x →
      x 0 = (im ((c - 1) + r * W) + im ((c + 1) + r * W)
              + im (c + (r - 1) * W) + im (c + (r + 1) * W)) / 4 := by
    intro mask W H stride r c im x hc hsol
    have hmem : ((r, c) : Fill.Pos) ∈ Fill.findCoords mask W H stride := by
      rw [← Fill.fillCoords_eq_findCoords, hc]
      exact List.mem_cons_self _ _
    obtain ⟨hb1, hb2, hb3, hb4, -⟩ := Fill.mem_findCoords.mp hmem
    dsimp only at hb1 hb2 hb3 hb4
    rw [hc] at hsol
    have hsol0 := hsol 0 (by simp)
    rw [show (List.range ([((r : ℕ), (c : ℕ))] : List Fill.Pos).length) = [0] by rfl]
      at hsol0
    simp only [List.map_cons, List.map_nil, List.sum_cons, List.sum_nil,
      add_zero] at hsol0
    rw [aMat_singleton hb1 hb3, bVal_singleton hb1 hb3] at hsol0
    linarith
  refine ⟨by decide, ?_, ?_, hgen⟩
  · intro x hx
    have h5 := hgen (fun k => if k = 4 then 1 else 0) 3 3 1 1 1
      (fun k => (([1, 2, 3, 4, 0, 6, 7, 8, 9] : List ℚ).getD k 0)) x
      (by decide) hx
    norm_num at h5
    exact h5
  · have h5 : Fill.roundSigned 5 = 5 := by
      rw [roundSigned_of_nonneg (by norm_num), truncZ_of_nonneg (by norm_num)]
      norm_num [Int.floor_eq_iff]
    have hfn : Fill.copyBackSigned
        (Fill.fillCoords (fun k => if k = 4 then 1 else 0) 3 3 1) 3 1 (fun _ => 5)
        (fun k => (([1, 2, 3, 4, 0, 6, 7, 8, 9] : List ℤ).getD k 0))
        = Function.update (fun k => (([1, 2, 3, 4, 0, 6, 7, 8, 9] : List ℤ).getD k 0))
            4 (Fill.roundSigned 5) := rfl
    intro k hk
    rw [hfn, h5]
    revert hk
    revert k
    decide

/-- Witness for C1's general single-unknown statement at the concrete
3-by-3 scenario with the constant solution 5. -/
theorem claim_C1_witness :
    Fill.fillCoords (fun k => if k = 4 then 1 else 0) 3 3 1 = [(1, 1)] ∧
    ((fun _ : ℕ => (5 : ℚ)) 0 =
      ((fun k => (([1, 2, 3, 4, 0, 6, 7, 8, 9] : List ℚ).getD k 0)) ((1 - 1) + 1 * 3)
        + (fun k => (([1, 2, 3, 4, 0, 6, 7, 8, 9] : List ℚ).getD k 0)) ((1 + 1) + 1 * 3)
        + (fun k => (([1, 2, 3, 4, 0, 6, 7, 8, 9] : List ℚ).getD k 0)) (1 + (1 - 1) * 3)
        + (fun k => (([1, 2, 3, 4, 0, 6, 7, 8, 9] : List ℚ).getD k 0)) (1 + (1 + 1) * 3)) / 4) := by
  have hsol : Fill.isSolution (Fill.fillCoords (fun k => if k = 4 then 1 else 0) 3 3 1)
      3 (fun k => (([1, 2, 3, 4, 0, 6, 7, 8, 9] : List ℚ).getD k 0))
      (fun _ => (5 : ℚ)) := by
    intro i hi
    have hi0 : i = 0 := by
      have hl : (Fill.fillCoords (fun k => if k = 4 then 1 else 0) 3 3 1).length = 1 :=
        by decide
      omega
    subst hi0
    have hc : Fill.fillCoords (fun k => if k = 4 then 1 else 0) 3 3 1 = [(1, 1)] :=
      by decide
    rw [hc]
    rw [show (List.range ([((1 : ℕ), (1 : ℕ))] : List Fill.Pos).length) = [0] by rfl]
    simp only [List.map_cons, List.map_nil, List.sum_cons, List.sum_nil, add_zero]
    rw [aMat_singleton (by norm_num) (by norm_num),
      bVal_singleton (by norm_num) (by norm_num)]
    norm_num
  exact ⟨by decide,
    claim_C1.2.2.2 (fun k => if k = 4 then 1 else 0) 3 3 1 1 1
      (fun k => (([1, 2, 3, 4, 0, 6, 7, 8, 9] : List ℚ).getD k 0))
      (fun _ => (5 : ℚ)) (by decide) hsol⟩

/-- C3: for every catalogue entry (r, c) of the exact solver built from a
mask, and each of its four cardinal neighbours, the neighbour table lrtb
records the neighbour's catalogue offset when the neighbour is itself a
catalogued hole pixel, and otherwise the negative code -(c2 + r2*W) - 1
built from the neighbour's row-major linear offset; and for W = 4, H = 5
with holes (1,1), (2,1), (3,1) passed as a coordinate list to the
constructor, the table is exactly
(-5, -7, -2, 1), (-9, -11, 0, 2), (-13, -15, 1, -18). -/
theorem claim_C3 :
    (∀ (mask : ℕ → ℤ) (W H stride : ℕ) (i : ℕ),
      i < (Fill.fillCoords mask W H stride).length →
      ∀ dr dc : Bool,
        let coords := Fill.fillCoords mask W H stride
        let p := coords.getD i (0, 0)
        let q : Fill.Pos :=
          if dr then (if dc then (p.1 + 1, p.2) else (p.1 - 1, p.2))
          else (if dc then (p.1, p.2 + 1) else (p.1, p.2 - 1))
        let e : ℤ :=
          if dr then
            (if dc then ((Fill.lrtb coords W).getD i ⟨0, 0, 0, 0⟩).bot
             else ((Fill.lrtb coords W).getD i ⟨0, 0, 0, 0⟩).top)
          else
            (if dc then ((Fill.lrtb coords W).getD i ⟨0, 0, 0, 0⟩).rgt
             else ((Fill.lrtb coords W).getD i ⟨0, 0, 0, 0⟩).lft)
        (q ∈ coords → ∃ j : Fin coords.length, coords.get j = q ∧ e = j) ∧
        (q ∉ coords → e = -((q.2 : ℤ) + (q.1 : ℤ) * (W : ℤ)) - 1)) ∧
    Fill.lrtb (Fill.initCoords [(1, 1), (2, 1), (3, 1)] 4 5) 4 =
      [⟨-5, -7, -2, 1⟩, ⟨-9, -11, 0, 2⟩, ⟨-13, -15, 1, -18⟩] := by
  constructor
  · intro mask W H stride i hi dr dc
    intro coords p q e
    have hnd : coords.Nodup := Fill.fillCoords_nodup mask W H stride
    have he : e = Fill.nVal (Fill.coordsMap coords) W q.1 q.2 := by
      show e = _
      simp only [e, q, Fill.lrtb_getD hi]
      cases dr <;> cases dc <;> rfl
    rw [he]
    exact Fill.nVal_spec hnd W q
  · decide

/-- Reading back the i-th write, getD form. -/
theorem writeAll_enum_getD {β κ α : Type} [DecidableEq κ] (init : κ → α)
    (l : List β) (key : β → κ) (g : ℕ × β → α)
    (hnd : (l.map key).Nodup) {i : ℕ} (d : β) (hi : i < l.length) :
    writeAll init (l.enum.map fun e => (key e.2, g e)) (key (l.getD i d))
      = g (i, l.getD i d) := by
  have hg : l.getD i d = l.get ⟨i, hi⟩ := by
    rw [List.getD_eq_getElem _ _ hi]
    rfl
  rw [hg]
  exact writeAll_enum_get init l key g hnd ⟨i, hi⟩

namespace FillBiLin

open Fill (Pos)

theorem mem_scanCoords {h w : ℕ} {cen : ℕ → ℕ → ℤ} {p : Pos} :
    p ∈ scanCoords h w cen ↔ p.1 < h ∧ p.2 < w ∧ cen p.1 p.2 ≠ 0 := by
  obtain ⟨r, c⟩ := p
  simp only [scanCoords, List.mem_flatMap, List.mem_filterMap, List.mem_range]
  constructor
  · rintro ⟨c0, hc0, r0, hr0, hif⟩
    split_ifs at hif with hcond
    injection hif with h12
    injection h12 with h1 h2
    subst h1; subst h2
    exact ⟨hr0, hc0, hcond⟩
  · rintro ⟨h1, h2, h3⟩
    refine ⟨c, h2, r, h1, ?_⟩
    rw [if_pos h3]

theorem scanCoords_nodup (h w : ℕ) (cen : ℕ → ℕ → ℤ) :
    (scanCoords h w cen).Nodup := by
  rw [scanCoords, List.nodup_flatMap]
  constructor
  · intro c _
    refine List.Nodup.filterMap ?_ (List.nodup_range h)
    intro r1 r2 b hb1 hb2
    rw [Option.mem_def] at hb1 hb2
    split_ifs at hb1 hb2 with h1 h2
    injection Option.some.inj hb1 ▸ Option.some.inj hb2 with e1 e2
    exact e1.symm
  · refine (List.pairwise_lt_range w).imp ?_
    intro c1 c2 hlt q hq1 hq2
    have e1 : q.2 = c1 := by
      obtain ⟨r0, _, hif⟩ := List.mem_filterMap.mp hq1
      split_ifs at hif with hcond
      rw [← Option.some.inj hif]
    have e2 : q.2 = c2 := by
      obtain ⟨r0, _, hif⟩ := List.mem_filterMap.mp hq2
      split_ifs at hif with hcond
      rw [← Option.some.inj hif]
    omega

theorem populateCornerWeights_cmap (h w : ℕ) (s : BState) :
    (populateCornerWeights h w s).cmap = s.cmap := by
  simp only [populateCornerWeights]
  split_ifs <;> rfl

theorem populateCornerWeights_mask (h w : ℕ) (s : BState) :
    (populateCornerWeights h w s).mask = s.mask := by
  simp only [populateCornerWeights]
  split_ifs <;> rfl

theorem populateEdgeWeights_cmap (h w : ℕ) (s : BState) :
    (populateEdgeWeights h w s).cmap = s.cmap := rfl

theorem populateEdgeWeights_mask (h w : ℕ) (s : BState) :
    (populateEdgeWeights h w s).mask = s.mask := rfl

theorem populateInteriorWeights_cmap (h w : ℕ) (s : BState) :
    (populateInteriorWeights h w s).cmap = s.cmap := rfl

theorem populateInteriorWeights_mask (h w : ℕ) (s : BState) :
    (populateInteriorWeights h w s).mask = s.mask := rfl

theorem registerAll_cmap_neg (sqs : List Sq) (s : BState)
    (h : ∀ p : Pos, s.cmap p < 0) : ∀ p : Pos, (registerAll s sqs).cmap p < 0 := by
  induction sqs generalizing s with
  | nil => exact h
  | cons sq sqs ih =>
    refine ih _ ?_
    intro p
    simp only [registerSquare]
    split_ifs
    · norm_num
    · exact h p

/-- The catalogue and coordinates-map facts of a constructed FillBiLin: the
catalogue has no duplicates, each catalogue position maps to its own offset,
and every position outside the catalogue carries a negative map entry (-1,
or -2 inside a registered square). -/
theorem construct_cmap_spec (mask0 : ℕ → ℕ → Bool) (w h : ℕ) :
    (construct mask0 w h).coords.Nodup ∧
    (∀ i : ℕ, i < (construct mask0 w h).coords.length →
       (construct mask0 w h).cmap ((construct mask0 w h).coords.getD i (0, 0)) = i) ∧
    (∀ q : Pos, q ∉ (construct mask0 w h).coords →
       (construct mask0 w h).cmap q < 0) := by
  simp only [construct]
  split_ifs with h1 h2
  · exact ⟨List.nodup_nil, fun i hi => absurd hi (by simp), fun q _ => by norm_num⟩
  · exact ⟨List.nodup_nil, fun i hi => absurd hi (by simp), fun q _ => by norm_num⟩
  · set s0 : BState :=
      ⟨zeroWeights, (extendMask mask0 w h).f, fun _ => -1, []⟩ with hs0
    set s1 := registerAll s0 ((binMask (bin2x2 (extendMask mask0 w h)).h
      (bin2x2 (extendMask mask0 w h)) 4).1) with hs1
    set s4 := populateInteriorWeights h w (populateEdgeWeights h w
      (populateCornerWeights h w s1)) with hs4
    set coords := scanCoords h w s4.wts.cen with hcoords
    have hnd : coords.Nodup := scanCoords_nodup h w _
    have hneg : ∀ p : Pos, s4.cmap p < 0 := by
      rw [hs4, populateInteriorWeights_cmap, populateEdgeWeights_cmap,
        populateCornerWeights_cmap]
      exact registerAll_cmap_neg _ _ (fun p => by norm_num)
    refine ⟨hnd, ?_, ?_⟩
    · intro i hi
      exact writeAll_enum_getD s4.cmap coords (fun p => p) (fun e => (e.1 : ℤ))
        (by simpa using hnd) (0, 0) hi
    · intro q hq
      have he := writeAll_enum_not_mem s4.cmap coords (fun p => p)
        (fun e => (e.1 : ℤ)) q (by simpa using hq)
      exact lt_of_eq_of_lt he (hneg q)

/-- A cell true in the k-times binned mask certifies truth of the whole
2^k-by-2^k block of the unbinned mask. -/
theorem binPow_block : ∀ (k : ℕ) (a : BArr) (r c : ℕ),
    (binPow k a).f r c = true →
    ∀ i j : ℕ, i < 2 ^ k → j < 2 ^ k →
      a.f (2 ^ k * r + i) (2 ^ k * c + j) = true := by
  intro k
  induction k with
  | zero =>
    intro a r c hc i j hi hj
    interval_cases i
    interval_cases j
    simpa using hc
  | succ k ih =>
    intro a r c hc i j hi hj
    have hb := ih (bin2x2 a) r c hc (i / 2) (j / 2)
      (by omega) (by omega)
    simp only [bin2x2, Bool.and_eq_true] at hb
    have hidx1 : 2 ^ (k + 1) * r + i
        = 2 * (2 ^ k * r + i / 2) + i % 2 := by
      have := Nat.div_add_mod i 2
      ring_nf
      omega
    have hidx2 : 2 ^ (k + 1) * c + j
        = 2 * (2 ^ k * c + j / 2) + j % 2 := by
      have := Nat.div_add_mod j 2
      ring_nf
      omega
    rw [hidx1, hidx2]
    have hi2 : i % 2 = 0 ∨ i % 2 = 1 := by omega
    have hj2 : j % 2 = 0 ∨ j % 2 = 1 := by omega
    rcases hi2 with h1 | h1 <;> rcases hj2 with h2 | h2 <;>
      simp only [h1, h2, Nat.add_zero] <;> tauto

/-- Unpacking a true entry of the valid-square map. -/
theorem validSquare_true {a : BArr} {r c : ℕ}
    (h : (validSquare a).f r c = true) :
    1 ≤ r ∧ r + 2 ≤ a.h ∧ 1 ≤ c ∧ c + 2 ≤ a.w ∧
      a.f (r - 1) c = true ∧ a.f (r + 1) c = true ∧
      a.f r (c - 1) = true ∧ a.f r (c + 1) = true ∧ a.f r c = true := by
  simp only [validSquare, Bool.and_eq_true, decide_eq_true_eq] at h
  tauto

/-- Membership in the square scan. -/
theorem mem_squaresOf {v : BArr} {bf : ℕ} {sq : Sq}
    (h : sq ∈ squaresOf v bf) : v.f sq.1 sq.2.1 = true ∧ sq.2.2 = bf := by
  obtain ⟨r, c, b⟩ := sq
  simp only [squaresOf, List.mem_flatMap, List.mem_filterMap,
    List.mem_range] at h
  obtain ⟨c0, _, r0, _, hif⟩ := h
  split_ifs at hif with hcond
  injection hif with h12
  injection h12 with h1 h23
  injection h23 with h2 h3
  subst h1; subst h2; subst h3
  exact ⟨hcond, rfl⟩

/-- Every square binMask returns is a valid cell at its binning level: its
side is bf0 times a power of two and the corresponding cell of the
valid-square map of the (k+1)-times binned input is true. -/
theorem binMask_sound : ∀ (fuel : ℕ) (hi : BArr) (bf0 : ℕ) (sq : Sq),
    sq ∈ (binMask fuel hi bf0).1 →
    ∃ k : ℕ, sq.2.2 = 2 ^ k * bf0 ∧
      (validSquare (binPow (k + 1) hi)).f sq.1 sq.2.1 = true := by
  intro fuel
  induction fuel with
  | zero =>
    intro hi bf0 sq hm
    obtain ⟨hv, hbf⟩ := mem_squaresOf hm
    exact ⟨0, by simpa using hbf, by simpa [binPow] using hv⟩
  | succ fuel ih =>
    intro hi bf0 sq hm
    simp only [binMask] at hm
    split_ifs at hm with hdim
    · rcases List.mem_append.mp hm with hm1 | hm2
      · obtain ⟨k, hbf, hv⟩ := ih (bin2x2 hi) (2 * bf0) sq hm1
        refine ⟨k + 1, by rw [hbf]; ring, ?_⟩
        have : binPow (k + 1 + 1) hi = binPow (k + 1) (bin2x2 hi) := rfl
        rw [this]
        exact hv
      · obtain ⟨hv, hbf⟩ := mem_squaresOf hm2
        simp only [Bool.and_eq_true] at hv
        exact ⟨0, by simpa using hbf, by simpa [binPow] using hv.1⟩
    · obtain ⟨hv, hbf⟩ := mem_squaresOf hm
      exact ⟨0, by simpa using hbf, by simpa [binPow] using hv⟩

/-- A set pixel of the extended mask lies inside the original image and is
set in the original mask. -/
theorem extendMask_true {mask0 : ℕ → ℕ → Bool} {w h R C : ℕ}
    (hE : (extendMask mask0 w h).f R C = true) :
    R < h ∧ C < w ∧ mask0 R C = true := by
  simp only [extendMask, Bool.and_eq_true, decide_eq_true_eq] at hE
  tauto

/-- Every square registered by the constructor's binMask run lies strictly
inside the h-by-w image with a one-pixel margin on every side: its top row
r*bf is at least 1, its bottom row (r+1)*bf - 1 is at most h - 2, and
likewise for columns; its side bf is at least 4. -/
theorem registered_square_bounds (mask0 : ℕ → ℕ → Bool) (w h : ℕ) (sq : Sq)
    (hm : sq ∈ (binMask (bin2x2 (extendMask mask0 w h)).h
      (bin2x2 (extendMask mask0 w h)) 4).1) :
    1 ≤ sq.1 * sq.2.2 ∧ (sq.1 + 1) * sq.2.2 + 1 ≤ h ∧
    1 ≤ sq.2.1 * sq.2.2 ∧ (sq.2.1 + 1) * sq.2.2 + 1 ≤ w ∧ 4 ≤ sq.2.2 := by
  obtain ⟨k, hbf, hv⟩ := binMask_sound _ _ _ _ hm
  have hpow : binPow (k + 1) (bin2x2 (extendMask mask0 w h))
      = binPow (k + 2) (extendMask mask0 w h) := rfl
  rw [hpow] at hv
  obtain ⟨hr1, -, hc1, -, -, hcushB, -, hcushR, -⟩ := validSquare_true hv
  have hB1 : 1 ≤ 2 ^ (k + 2) := Nat.one_le_two_pow
  have hB4 : 4 ≤ 2 ^ (k + 2) := by
    calc 4 = 2 ^ 2 := by norm_num
    _ ≤ 2 ^ (k + 2) := Nat.pow_le_pow_right (by norm_num) (by omega)
  have hbf2 : sq.2.2 = 2 ^ (k + 2) := by
    rw [hbf]
    ring
  have hrowE := binPow_block (k + 2) (extendMask mask0 w h) (sq.1 + 1) sq.2.1
    hcushB (2 ^ (k + 2) - 1) 0 (by omega) (by omega)
  have hcolE := binPow_block (k + 2) (extendMask mask0 w h) sq.1 (sq.2.1 + 1)
    hcushR 0 (2 ^ (k + 2) - 1) (by omega) (by omega)
  have hrow := (extendMask_true hrowE).1
  have hcol := (extendMask_true hcolE).2.1
  rw [hbf2]
  have e1 : 1 * 1 ≤ sq.1 * 2 ^ (k + 2) :=
    Nat.mul_le_mul hr1 (by omega)
  have e2 : 1 * 1 ≤ sq.2.1 * 2 ^ (k + 2) :=
    Nat.mul_le_mul hc1 (by omega)
  refine ⟨by omega, ?_, by omega, ?_, by omega⟩
  · have hx : 2 ^ (k + 2) * (sq.1 + 1) + (2 ^ (k + 2) - 1) < h := hrow
    have hcomm : 2 ^ (k + 2) * (sq.1 + 1) = (sq.1 + 1) * 2 ^ (k + 2) :=
      Nat.mul_comm _ _
    omega
  · have hx : 2 ^ (k + 2) * (sq.2.1 + 1) + (2 ^ (k + 2) - 1) < w := hcol
    have hcomm : 2 ^ (k + 2) * (sq.2.1 + 1) = (sq.2.1 + 1) * 2 ^ (k + 2) :=
      Nat.mul_comm _ _
    omega

/-- Writing a square's perimeter stencils preserves the row balance at
every pixel. -/
theorem registerSquareWeights_offSum (T L B R : ℕ) (wts : Weights)
    (hok : wtsOffSumOk wts) :
    wtsOffSumOk (registerSquareWeights T L B R wts) := by
  intro r c
  simp only [registerSquareWeights]
  split_ifs
  · norm_num
  · norm_num
  · norm_num
  · exact hok r c

/-- Pixels outside the square keep their weights. -/
theorem registerSquareWeights_outside (T L B R : ℕ) (wts : Weights)
    (r c : ℕ) (hout : ¬(T ≤ r ∧ r ≤ B ∧ L ≤ c ∧ c ≤ R)) (hTB : T ≤ B)
    (hLR : L ≤ R) :
    (registerSquareWeights T L B R wts).lft r c = wts.lft r c ∧
    (registerSquareWeights T L B R wts).rgt r c = wts.rgt r c ∧
    (registerSquareWeights T L B R wts).top r c = wts.top r c ∧
    (registerSquareWeights T L B R wts).bot r c = wts.bot r c ∧
    (registerSquareWeights T L B R wts).cen r c = wts.cen r c := by
  refine ⟨?_, ?_, ?_, ?_, ?_⟩ <;>
    (simp only [registerSquareWeights]
     split_ifs with h1 h2 h3 <;> first | rfl | omega)

/-- A pixel still set after a square is cleared lies outside the square and
was set before. -/
theorem eliminate_true {T L B R : ℕ} {mask : ℕ → ℕ → Bool} {r c : ℕ}
    (h : eliminateSquareFromMask T L B R mask r c = true) :
    ¬(T ≤ r ∧ r ≤ B ∧ L ≤ c ∧ c ≤ R) ∧ mask r c = true := by
  simp only [eliminateSquareFromMask] at h
  split_ifs at h with hc
  exact ⟨hc, h⟩

/-- Registering one square preserves the registration invariant, provided
the square sits strictly inside the image with a one-pixel margin. -/
theorem registerSquare_invariant {h w : ℕ} {s : BState} {sq : Sq}
    (hb1 : 1 ≤ sq.1 * sq.2.2) (hb2 : (sq.1 + 1) * sq.2.2 + 1 ≤ h)
    (hb3 : 1 ≤ sq.2.1 * sq.2.2) (hb4 : (sq.2.1 + 1) * sq.2.2 + 1 ≤ w)
    (hb5 : 4 ≤ sq.2.2) (hinv : regInv h w s) :
    regInv h w (registerSquare s sq) := by
  obtain ⟨hok, hborder, hmask⟩ := hinv
  have hmul1 : (sq.1 + 1) * sq.2.2 = sq.1 * sq.2.2 + sq.2.2 := by ring
  have hmul2 : (sq.2.1 + 1) * sq.2.2 = sq.2.1 * sq.2.2 + sq.2.2 := by ring
  have hTB : sq.1 * sq.2.2 ≤ sq.1 * sq.2.2 + sq.2.2 - 1 := by omega
  have hLR : sq.2.1 * sq.2.2 ≤ sq.2.1 * sq.2.2 + sq.2.2 - 1 := by omega
  refine ⟨registerSquareWeights_offSum _ _ _ _ _ hok, ?_, ?_⟩
  · intro r c hrc
    have hout : ¬(sq.1 * sq.2.2 ≤ r ∧ r ≤ sq.1 * sq.2.2 + sq.2.2 - 1 ∧
        sq.2.1 * sq.2.2 ≤ c ∧ c ≤ sq.2.1 * sq.2.2 + sq.2.2 - 1) := by
      omega
    obtain ⟨e1, e2, e3, e4, e5⟩ :=
      registerSquareWeights_outside _ _ _ _ s.wts r c hout hTB hLR
    obtain ⟨z1, z2, z3, z4, z5⟩ := hborder r c hrc
    simp only [registerSquare, wtsZeroAt]
    exact ⟨by rw [e1, z1], by rw [e2, z2], by rw [e3, z3], by rw [e4, z4],
      by rw [e5, z5]⟩
  · intro r c hrc
    simp only [registerSquare] at hrc
    obtain ⟨hout, hold⟩ := eliminate_true hrc
    obtain ⟨e1, e2, e3, e4, e5⟩ :=
      registerSquareWeights_outside _ _ _ _ s.wts r c hout hTB hLR
    obtain ⟨z1, z2, z3, z4, z5⟩ := hmask r c hold
    simp only [registerSquare, wtsZeroAt]
    exact ⟨by rw [e1, z1], by rw [e2, z2], by rw [e3, z3], by rw [e4, z4],
      by rw [e5, z5]⟩

/-- Registering a list of in-bounds squares preserves the invariant. -/
theorem registerAll_invariant {h w : ℕ} : ∀ (sqs : List Sq) (s : BState),
    (∀ sq ∈ sqs, 1 ≤ sq.1 * sq.2.2 ∧ (sq.1 + 1) * sq.2.2 + 1 ≤ h ∧
      1 ≤ sq.2.1 * sq.2.2 ∧ (sq.2.1 + 1) * sq.2.2 + 1 ≤ w ∧ 4 ≤ sq.2.2) →
    regInv h w s → regInv h w (registerAll s sqs) := by
  intro sqs
  induction sqs with
  | nil => intro s _ hinv; exact hinv
  | cons sq sqs ih =>
    intro s hb hinv
    obtain ⟨h1, h2, h3, h4, h5⟩ := hb sq (List.mem_cons_self _ _)
    exact ih _ (fun q hq => hb q (List.mem_cons_of_mem _ hq))
      (registerSquare_invariant h1 h2 h3 h4 h5 hinv)

/-- The corner pass leaves every non-corner pixel's weights unchanged. -/
theorem populateCornerWeights_noncorner (h w : ℕ) (s : BState) (r c : ℕ)
    (hc1 : ¬(r = 0 ∧ c = 0)) (hc2 : ¬(r = 0 ∧ c = w - 1))
    (hc3 : ¬(r = h - 1 ∧ c = w - 1)) (hc4 : ¬(r = h - 1 ∧ c = 0)) :
    (populateCornerWeights h w s).wts.lft r c = s.wts.lft r c ∧
    (populateCornerWeights h w s).wts.rgt r c = s.wts.rgt r c ∧
    (populateCornerWeights h w s).wts.top r c = s.wts.top r c ∧
    (populateCornerWeights h w s).wts.bot r c = s.wts.bot r c ∧
    (populateCornerWeights h w s).wts.cen r c = s.wts.cen r c := by
  refine ⟨?_, ?_, ?_, ?_, ?_⟩ <;>
    (simp only [populateCornerWeights]
     split_ifs <;>
       simp only [setPix, if_neg hc1, if_neg hc2, if_neg hc3, if_neg hc4])

set_option maxHeartbeats 3000000 in
/-- The corner pass keeps the off-centre/centre balance at every pixel,
given that the incoming weights balance and vanish on the border. -/
theorem populateCornerWeights_offSum (h w : ℕ) (h3 : 3 ≤ h) (w3 : 3 ≤ w)
    (s : BState) (hok : wtsOffSumOk s.wts)
    (hborder : ∀ r c : ℕ, (r = 0 ∨ h ≤ r + 1 ∨ c = 0 ∨ w ≤ c + 1) →
      wtsZeroAt s.wts r c) :
    wtsOffSumOk (populateCornerWeights h w s).wts := by
  intro r c
  by_cases k1 : r = 0 ∧ c = 0
  · obtain ⟨hr, hc⟩ := k1
    subst hr; subst hc
    have hz := hborder 0 0 (Or.inl rfl)
    have e1 : ¬((0:ℕ) = w - 1) := by omega
    have e2 : ¬((0:ℕ) = h - 1) := by omega
    have n3 : ¬((0:ℕ) = h - 1 ∧ (0:ℕ) = w - 1) := by omega
    simp only [populateCornerWeights]
    split_ifs <;>
      (try (dsimp only; simp only [setPix, true_and, and_true, if_true,
        if_neg e1, if_neg e2, if_neg n3])) <;>
      linarith [hz.1, hz.2.1, hz.2.2.1, hz.2.2.2.1, hz.2.2.2.2, hok 0 0]
  by_cases k2 : r = 0 ∧ c = w - 1
  · obtain ⟨hr, hc⟩ := k2
    subst hr; subst hc
    have hz := hborder 0 (w - 1) (Or.inr (Or.inr (Or.inr (by omega))))
    have e1 : ¬(w - 1 = 0) := by omega
    have e2 : ¬((0:ℕ) = h - 1) := by omega
    have n4 : ¬((0:ℕ) = h - 1 ∧ w - 1 = 0) := by omega
    simp only [populateCornerWeights]
    split_ifs <;>
      (try (dsimp only; simp only [setPix, true_and, and_true, if_true,
        if_neg e1, if_neg e2, if_neg n4])) <;>
      linarith [hz.1, hz.2.1, hz.2.2.1, hz.2.2.2.1, hz.2.2.2.2, hok 0 (w - 1)]
  by_cases k3 : r = h - 1 ∧ c = w - 1
  · obtain ⟨hr, hc⟩ := k3
    subst hr; subst hc
    have hz := hborder (h - 1) (w - 1) (Or.inr (Or.inl (by omega)))
    have e1 : ¬(h - 1 = 0) := by omega
    have e2 : ¬(w - 1 = 0) := by omega
    have n1 : ¬(h - 1 = 0 ∧ w - 1 = 0) := by omega
    simp only [populateCornerWeights]
    split_ifs <;>
      (try (dsimp only; simp only [setPix, true_and, and_true, if_true,
        if_neg e1, if_neg e2, if_neg n1])) <;>
      linarith [hz.1, hz.2.1, hz.2.2.1, hz.2.2.2.1, hz.2.2.2.2,
        hok (h - 1) (w - 1)]
  by_cases k4 : r = h - 1 ∧ c = 0
  · obtain ⟨hr, hc⟩ := k4
    subst hr; subst hc
    have hz := hborder (h - 1) 0 (Or.inr (Or.inl (by omega)))
    have e1 : ¬(h - 1 = 0) := by omega
    have e2 : ¬((0:ℕ) = w - 1) := by omega
    have n2 : ¬(h - 1 = 0 ∧ (0:ℕ) = w - 1) := by omega
    simp only [populateCornerWeights]
    split_ifs <;>
      (try (dsimp only; simp only [setPix, true_and, and_true, if_true,
        if_neg e1, if_neg e2, if_neg n2])) <;>
      linarith [hz.1, hz.2.1, hz.2.2.1, hz.2.2.2.1, hz.2.2.2.2, hok (h - 1) 0]
  obtain ⟨e1, e2, e3, e4, e5⟩ := populateCornerWeights_noncorner h w s r c k1 k2 k3 k4
  rw [e1, e2, e3, e4, e5]
  exact hok r c

/-- The edge pass keeps the balance at every pixel, given that the incoming
weights balance and that, on each strip, the channel pointing off the image
is zero. -/
theorem populateEdgeWeights_offSum (h w : ℕ) (h3 : 3 ≤ h) (w3 : 3 ≤ w)
    (s2 : BState) (hok : wtsOffSumOk s2.wts)
    (hzL : ∀ r c : ℕ, c = 0 → 1 ≤ r → r + 2 ≤ h → s2.wts.lft r c = 0)
    (hzT : ∀ r c : ℕ, r = 0 → 1 ≤ c → c + 2 ≤ w → s2.wts.top r c = 0)
    (hzR : ∀ r c : ℕ, c = w - 1 → 1 ≤ r → r + 2 ≤ h → s2.wts.rgt r c = 0)
    (hzB : ∀ r c : ℕ, r = h - 1 → 1 ≤ c → c + 2 ≤ w → s2.wts.bot r c = 0) :
    wtsOffSumOk (populateEdgeWeights h w s2).wts := by
  intro r c
  simp only [populateEdgeWeights]
  by_cases hL : c = 0 ∧ 1 ≤ r ∧ r + 2 ≤ h
  · have hnT : ¬(r = 0 ∧ 1 ≤ c ∧ c + 2 ≤ w) := by omega
    have hnR : ¬(c = w - 1 ∧ 1 ≤ r ∧ r + 2 ≤ h) := by omega
    have hnB : ¬(r = h - 1 ∧ 1 ≤ c ∧ c + 2 ≤ w) := by omega
    have hz := hzL r c hL.1 hL.2.1 hL.2.2
    simp only [if_pos hL, if_neg hnT, if_neg hnR, if_neg hnB]
    rw [hz]; ring
  by_cases hT : r = 0 ∧ 1 ≤ c ∧ c + 2 ≤ w
  · have hnR : ¬(c = w - 1 ∧ 1 ≤ r ∧ r + 2 ≤ h) := by omega
    have hnB : ¬(r = h - 1 ∧ 1 ≤ c ∧ c + 2 ≤ w) := by omega
    have hz := hzT r c hT.1 hT.2.1 hT.2.2
    simp only [if_pos hT, if_neg hL, if_neg hnR, if_neg hnB]
    rw [hz]; ring
  by_cases hR : c = w - 1 ∧ 1 ≤ r ∧ r + 2 ≤ h
  · have hnB : ¬(r = h - 1 ∧ 1 ≤ c ∧ c + 2 ≤ w) := by omega
    have hz := hzR r c hR.1 hR.2.1 hR.2.2
    simp only [if_pos hR, if_neg hL, if_neg hT, if_neg hnB]
    rw [hz]; ring
  by_cases hB : r = h - 1 ∧ 1 ≤ c ∧ c + 2 ≤ w
  · have hz := hzB r c hB.1 hB.2.1 hB.2.2
    simp only [if_pos hB, if_neg hL, if_neg hT, if_neg hR]
    rw [hz]; ring
  simp only [if_neg hL, if_neg hT, if_neg hR, if_neg hB]
  exact hok r c

/-- The interior pass preserves the balance at every pixel. -/
theorem populateInteriorWeights_offSum (h w : ℕ) (s3 : BState)
    (hok : wtsOffSumOk s3.wts) :
    wtsOffSumOk (populateInteriorWeights h w s3).wts := by
  intro r c
  have h4 := hok r c
  simp only [populateInteriorWeights]
  split_ifs <;> linarith

/-- pow2 of an argument at most two is at most two (so the constructor's
guards force a height and width of at least three on the main path). -/
theorem pow2_le_two_of_le_two : ∀ i : ℕ, i ≤ 2 → pow2 i ≤ 2 := by
  intro i hi
  interval_cases i <;> decide

/-- After the whole constructor, the four off-centre weights sum to the
negation of the centre weight at every pixel, for every mask and size. -/
theorem construct_offSum (mask0 : ℕ → ℕ → Bool) (w h : ℕ) :
    wtsOffSumOk (construct mask0 w h).wts := by
  simp only [construct]
  split_ifs with g1 g2
  · intro r c; simp [zeroWeights]
  · intro r c; simp [zeroWeights]
  simp only [extendMask] at g1 g2
  simp only [bin2x2] at g2
  push_neg at g1 g2
  have h3 : 3 ≤ h := by
    by_contra hcon
    push_neg at hcon
    have := pow2_le_two_of_le_two h (by omega)
    omega
  have w3 : 3 ≤ w := by
    by_contra hcon
    push_neg at hcon
    have := pow2_le_two_of_le_two w (by omega)
    omega
  have hmain : ∀ s1 : BState, regInv h w s1 →
      wtsOffSumOk (populateInteriorWeights h w (populateEdgeWeights h w
        (populateCornerWeights h w s1))).wts := by
    intro s1 hinv1
    obtain ⟨hok1, hborder1, -⟩ := hinv1
    have hs2ok := populateCornerWeights_offSum h w h3 w3 s1 hok1 hborder1
    refine populateInteriorWeights_offSum h w _
      (populateEdgeWeights_offSum h w h3 w3 _ hs2ok ?_ ?_ ?_ ?_)
    · intro r c hc u1 u2
      have k1 : ¬(r = 0 ∧ c = 0) := by omega
      have k2 : ¬(r = 0 ∧ c = w - 1) := by omega
      have k3 : ¬(r = h - 1 ∧ c = w - 1) := by omega
      have k4 : ¬(r = h - 1 ∧ c = 0) := by omega
      obtain ⟨e1, -, -, -, -⟩ :=
        populateCornerWeights_noncorner h w s1 r c k1 k2 k3 k4
      rw [e1]
      exact (hborder1 r c (Or.inr (Or.inr (Or.inl hc)))).1
    · intro r c hr u1 u2
      have k1 : ¬(r = 0 ∧ c = 0) := by omega
      have k2 : ¬(r = 0 ∧ c = w - 1) := by omega
      have k3 : ¬(r = h - 1 ∧ c = w - 1) := by omega
      have k4 : ¬(r = h - 1 ∧ c = 0) := by omega
      obtain ⟨-, -, e3, -, -⟩ :=
        populateCornerWeights_noncorner h w s1 r c k1 k2 k3 k4
      rw [e3]
      exact (hborder1 r c (Or.inl hr)).2.2.1
    · intro r c hc u1 u2
      have k1 : ¬(r = 0 ∧ c = 0) := by omega
      have k2 : ¬(r = 0 ∧ c = w - 1) := by omega
      have k3 : ¬(r = h - 1 ∧ c = w - 1) := by omega
      have k4 : ¬(r = h - 1 ∧ c = 0) := by omega
      obtain ⟨-, e2, -, -, -⟩ :=
        populateCornerWeights_noncorner h w s1 r c k1 k2 k3 k4
      rw [e2]
      exact (hborder1 r c (Or.inr (Or.inr (Or.inr (by omega))))).2.1
    · intro r c hr u1 u2
      have k1 : ¬(r = 0 ∧ c = 0) := by omega
      have k2 : ¬(r = 0 ∧ c = w - 1) := by omega
      have k3 : ¬(r = h - 1 ∧ c = w - 1) := by omega
      have k4 : ¬(r = h - 1 ∧ c = 0) := by omega
      obtain ⟨-, -, -, e4, -⟩ :=
        populateCornerWeights_noncorner h w s1 r c k1 k2 k3 k4
      rw [e4]
      exact (hborder1 r c (Or.inr (Or.inl (by omega)))).2.2.2.1
  refine hmain _ (registerAll_invariant _ _
    (fun sq hsq => registered_square_bounds mask0 w h sq hsq) ?_)
  exact ⟨fun r c => by simp [zeroWeights],
    fun r c _ => ⟨rfl, rfl, rfl, rfl, rfl⟩,
    fun r c _ => ⟨rfl, rfl, rfl, rfl, rfl⟩⟩

end FillBiLin

/-- Witness for C3 at the single-unknown 3-by-3 mask: the left neighbour of
catalogue entry 0 is a boundary pixel, so its code is the negative
encoding. -/
theorem claim_C3_witness :
    (Fill.fillCoords (fun k => if k = 4 then 1 else 0) 3 3 1).length = 1 ∧
    ((1, 0) ∉ Fill.fillCoords (fun k => if k = 4 then 1 else 0) 3 3 1 ∧
      ((Fill.lrtb (Fill.fillCoords (fun k => if k = 4 then 1 else 0) 3 3 1) 3).getD
          0 ⟨0, 0, 0, 0⟩).lft = -(((0 : ℕ) : ℤ) + ((1 : ℕ) : ℤ) * ((3 : ℕ) : ℤ)) - 1) := by
  refine ⟨by decide, by decide, ?_⟩
  have h := (claim_C3.1 (fun k => if k = 4 then 1 else 0) 3 3 1 0 (by decide)
    false false).2
  exact h (by decide)

/-- C4: in both the exact solver (catalogue built from a mask) and the
approximate solver, coordsMap[coords[i]] = i, no entry of the coordinates
map at any other position equals i, and every entry at a position outside
the catalogue is negative: the map is a bijection between catalogue offsets
and hole-pixel positions. -/
theorem claim_C4 :
    (∀ (mask : ℕ → ℤ) (W H stride : ℕ) (i : ℕ),
       i < (Fill.fillCoords mask W H stride).length →
       (Fill.coordsMap (Fill.fillCoords mask W H stride)
           ((Fill.fillCoords mask W H stride).getD i (0, 0)) = i ∧
        ∀ q : Fill.Pos, q ≠ (Fill.fillCoords mask W H stride).getD i (0, 0) →
          Fill.coordsMap (Fill.fillCoords mask W H stride) q ≠ i)) ∧
    (∀ (mask : ℕ → ℤ) (W H stride : ℕ) (q : Fill.Pos),
       q ∉ Fill.fillCoords mask W H stride →
       Fill.coordsMap (Fill.fillCoords mask W H stride) q < 0) ∧
    (∀ (mask0 : ℕ → ℕ → Bool) (w h : ℕ) (i : ℕ),
       i < (FillBiLin.construct mask0 w h).coords.length →
       ((FillBiLin.construct mask0 w h).cmap
           ((FillBiLin.construct mask0 w h).coords.getD i (0, 0)) = i ∧
        ∀ q : Fill.Pos, q ≠ (FillBiLin.construct mask0 w h).coords.getD i (0, 0) →
          (FillBiLin.construct mask0 w h).cmap q ≠ i)) ∧
    (∀ (mask0 : ℕ → ℕ → Bool) (w h : ℕ) (q : Fill.Pos),
       q ∉ (FillBiLin.construct mask0 w h).coords →
       (FillBiLin.construct mask0 w h).cmap q < 0) := by
  refine ⟨?_, ?_, ?_, ?_⟩
  · intro mask W H stride i hi
    have hnd := Fill.fillCoords_nodup mask W H stride
    constructor
    · exact writeAll_enum_getD (fun _ => -1) _ (fun p => p) (fun e => (e.1 : ℤ))
        (by simpa using hnd) (0, 0) hi
    · intro q hne
      by_cases hq : q ∈ Fill.fillCoords mask W H stride
      · obtain ⟨j, hj, hv⟩ := Fill.coordsMap_mem hnd hq
        rw [hv]
        intro hji
        have hj2 : (j : ℕ) = i := by exact_mod_cast hji
        apply hne
        rw [← hj, List.getD_eq_getElem _ _ hi]
        subst hj2
        rfl
      · rw [Fill.coordsMap_not_mem hq]
        omega
  · intro mask W H stride q hq
    rw [Fill.coordsMap_not_mem hq]
    norm_num
  · intro mask0 w h i hi
    obtain ⟨hnd, hget, hout⟩ := FillBiLin.construct_cmap_spec mask0 w h
    refine ⟨hget i hi, ?_⟩
    intro q hne
    by_cases hq : q ∈ (FillBiLin.construct mask0 w h).coords
    · obtain ⟨j, hj⟩ := List.mem_iff_get.mp hq
      have hgd : (FillBiLin.construct mask0 w h).coords.getD j (0, 0) = q := by
        rw [List.getD_eq_getElem _ _ j.2]
        rw [← hj]
        rfl
      have hv := hget j j.2
      rw [hgd] at hv
      rw [hv]
      intro hji
      have hj2 : (j : ℕ) = i := by exact_mod_cast hji
      apply hne
      rw [← hgd, hj2]
    · have := hout q hq
      omega
  · intro mask0 w h q hq
    exact (FillBiLin.construct_cmap_spec mask0 w h).2.2 q hq

/-- Witness for C4: the 3-by-3 single-hole mask for the exact solver and a
12-by-12 mask with a 6-by-6 hole for the approximate solver. -/
theorem claim_C4_witness :
    ((0 : ℕ) < (Fill.fillCoords (fun k => if k = 4 then 1 else 0) 3 3 1).length ∧
     Fill.coordsMap (Fill.fillCoords (fun k => if k = 4 then 1 else 0) 3 3 1)
       ((Fill.fillCoords (fun k => if k = 4 then 1 else 0) 3 3 1).getD 0 (0, 0)) = 0) ∧
    ((0 : ℕ) < (FillBiLin.construct
        (fun r c => 3 ≤ r && r ≤ 8 && 3 ≤ c && c ≤ 8) 12 12).coords.length ∧
     (FillBiLin.construct (fun r c => 3 ≤ r && r ≤ 8 && 3 ≤ c && c ≤ 8) 12 12).cmap
       ((FillBiLin.construct (fun r c => 3 ≤ r && r ≤ 8 && 3 ≤ c && c ≤ 8)
           12 12).coords.getD 0 (0, 0)) = 0) :=
  ⟨⟨by decide, (claim_C4.1 (fun k => if k = 4 then 1 else 0) 3 3 1 0 (by decide)).1⟩,
   ⟨by decide, (claim_C4.2.2.1 (fun r c => 3 ≤ r && r ≤ 8 && 3 ≤ c && c ≤ 8) 12 12 0
      (by decide)).1⟩⟩

/-- Counterexample to C5: for W = H = 12 and the solid 6-by-6 interior
square mask (rows and columns 3..8), the approximate analyser registers no
square at all (a side-4 square would need a full binned-cell cushion, which
a 6-by-6 hole cannot provide), so nSquares is not 1 and the reduced
catalogue does not have 32 entries. -/
theorem claim_C5_counterexample :
    (FillBiLin.construct (fun r c => 3 ≤ r && r ≤ 8 && 3 ≤ c && c ≤ 8)
      12 12).corners.length ≠ 1 ∧
    (FillBiLin.construct (fun r c => 3 ≤ r && r ≤ 8 && 3 ≤ c && c ≤ 8)
      12 12).coords.length ≠ 32 := by
  constructor
  · decide
  · decide

/-- C5 as amended: for W = H = 12 and the solid 6-by-6 interior square
mask, the approximate analyser registers no squares (corners() is empty,
nSquares() = 0) and the reduced catalogue holds all 36 hole pixels. -/
theorem claim_C5_amended :
    (FillBiLin.construct (fun r c => 3 ≤ r && r ≤ 8 && 3 ≤ c && c ≤ 8)
      12 12).corners = [] ∧
    (FillBiLin.construct (fun r c => 3 ≤ r && r ≤ 8 && 3 ≤ c && c ≤ 8)
      12 12).coords.length = 36 := by
  constructor
  · decide
  · decide

/-- Evaluation for C6 (code bug): on the 16-by-16 plus-shaped mask the
analyser registers exactly the square with top = 4, left = 4, side 4 (so
s = side - 1 = 3), its corner (4,4) receives the claimed stencil
(1,1,1,1,-4), but the vertical-edge pixel (5,4) receives (0,0,1,1,-2) - the
plain unit one-dimensional Laplacian - and not the anisotropic stencil
(0,0,s,s,-3s-1) = (0,0,3,3,-10) with extra unit weights that the
specification prescribes. -/
theorem claim_C6_eval :
    (FillBiLin.construct (fun r c =>
        decide ((r / 4 = 0 ∧ c / 4 = 1) ∨ (r / 4 = 1 ∧ c / 4 ≤ 2) ∨
          (r / 4 = 2 ∧ c / 4 = 1))) 16 16).corners = [(4, 4, 4)] ∧
    (FillBiLin.construct (fun r c =>
        decide ((r / 4 = 0 ∧ c / 4 = 1) ∨ (r / 4 = 1 ∧ c / 4 ≤ 2) ∨
          (r / 4 = 2 ∧ c / 4 = 1))) 16 16).wts.cen 4 4 = -4 ∧
    (FillBiLin.construct (fun r c =>
        decide ((r / 4 = 0 ∧ c / 4 = 1) ∨ (r / 4 = 1 ∧ c / 4 ≤ 2) ∨
          (r / 4 = 2 ∧ c / 4 = 1))) 16 16).wts.lft 5 4 = 0 ∧
    (FillBiLin.construct (fun r c =>
        decide ((r / 4 = 0 ∧ c / 4 = 1) ∨ (r / 4 = 1 ∧ c / 4 ≤ 2) ∨
          (r / 4 = 2 ∧ c / 4 = 1))) 16 16).wts.rgt 5 4 = 0 ∧
    (FillBiLin.construct (fun r c =>
        decide ((r / 4 = 0 ∧ c / 4 = 1) ∨ (r / 4 = 1 ∧ c / 4 ≤ 2) ∨
          (r / 4 = 2 ∧ c / 4 = 1))) 16 16).wts.top 5 4 = 1 ∧
    (FillBiLin.construct (fun r c =>
        decide ((r / 4 = 0 ∧ c / 4 = 1) ∨ (r / 4 = 1 ∧ c / 4 ≤ 2) ∨
          (r / 4 = 2 ∧ c / 4 = 1))) 16 16).wts.bot 5 4 = 1 ∧
    (FillBiLin.construct (fun r c =>
        decide ((r / 4 = 0 ∧ c / 4 = 1) ∨ (r / 4 = 1 ∧ c / 4 ≤ 2) ∨
          (r / 4 = 2 ∧ c / 4 = 1))) 16 16).wts.cen 5 4 = -2 ∧
    (FillBiLin.construct (fun r c =>
        decide ((r / 4 = 0 ∧ c / 4 = 1) ∨ (r / 4 = 1 ∧ c / 4 ≤ 2) ∨
          (r / 4 = 2 ∧ c / 4 = 1))) 16 16).wts.cen 5 4 ≠ -(3 * 3) - 1 := by
  refine ⟨by decide, by decide, by decide, by decide, by decide, by decide,
    by decide, by decide⟩

/-- Evaluation for C9 (code bug): on the 16-by-16 plus-shaped mask,
catalogue entry 0 is pixel (4, 0) and catalogue entry 16 is pixel (0, 4);
the unsigned-component write-back of the approximate solver stores through
the plain linear index r + h*c, so the memory cell at the row-major address
4*W + 0 = 64 of entry 0 receives the value of entry 16 (here 16, with the
solution vector x i = i), not entry 0's value 0. -/
theorem claim_C9_eval :
    (FillBiLin.construct (fun r c =>
        decide ((r / 4 = 0 ∧ c / 4 = 1) ∨ (r / 4 = 1 ∧ c / 4 ≤ 2) ∨
          (r / 4 = 2 ∧ c / 4 = 1))) 16 16).coords.getD 0 (0, 0) = (4, 0) ∧
    (FillBiLin.construct (fun r c =>
        decide ((r / 4 = 0 ∧ c / 4 = 1) ∨ (r / 4 = 1 ∧ c / 4 ≤ 2) ∨
          (r / 4 = 2 ∧ c / 4 = 1))) 16 16).coords.getD 16 (0, 0) = (0, 4) ∧
    FillBiLin.biLinCopyBackUnsigned
      (FillBiLin.construct (fun r c =>
        decide ((r / 4 = 0 ∧ c / 4 = 1) ∨ (r / 4 = 1 ∧ c / 4 ≤ 2) ∨
          (r / 4 = 2 ∧ c / 4 = 1))) 16 16).coords 16 16 1
      (fun i => ((i : ℚ))) (fun _ => 0) ((4 * 16 + 0) * 1) = 16 ∧
    ((16 : ℤ) ≠ Fill.roundUnsigned (((0 : ℕ) : ℚ))) := by
  refine ⟨by decide, by decide, ?_, ?_⟩
  · have hnd : (((FillBiLin.construct (fun r c =>
        decide ((r / 4 = 0 ∧ c / 4 = 1) ∨ (r / 4 = 1 ∧ c / 4 ≤ 2) ∨
          (r / 4 = 2 ∧ c / 4 = 1))) 16 16).coords).map
        fun p => FillBiLin.biLinIdx 16 p * 1).Nodup := by decide
    have h16 : 16 < (FillBiLin.construct (fun r c =>
        decide ((r / 4 = 0 ∧ c / 4 = 1) ∨ (r / 4 = 1 ∧ c / 4 ≤ 2) ∨
          (r / 4 = 2 ∧ c / 4 = 1))) 16 16).coords.length := by decide
    have hg := writeAll_enum_getD (fun _ => (0 : ℤ))
      ((FillBiLin.construct (fun r c =>
        decide ((r / 4 = 0 ∧ c / 4 = 1) ∨ (r / 4 = 1 ∧ c / 4 ≤ 2) ∨
          (r / 4 = 2 ∧ c / 4 = 1))) 16 16).coords)
      (fun p => FillBiLin.biLinIdx 16 p * 1)
      (fun e => Fill.roundUnsigned ((e.1 : ℚ))) hnd ((0, 0) : Fill.Pos) h16
    have hgd : (FillBiLin.construct (fun r c =>
        decide ((r / 4 = 0 ∧ c / 4 = 1) ∨ (r / 4 = 1 ∧ c / 4 ≤ 2) ∨
          (r / 4 = 2 ∧ c / 4 = 1))) 16 16).coords.getD 16 (0, 0)
        = ((0 : ℕ), (4 : ℕ)) := by decide
    rw [hgd] at hg
    have hval : Fill.roundUnsigned (((16 : ℕ) : ℚ)) = 16 := by
      rw [Fill.roundUnsigned, truncZ_of_nonneg (by positivity)]
      rw [show (((16 : ℕ) : ℚ) + 1 / 2) = (33 : ℚ) / 2 by push_cast; ring]
      norm_num [Int.floor_eq_iff]
    calc FillBiLin.biLinCopyBackUnsigned _ 16 16 1 (fun i => ((i : ℚ)))
          (fun _ => 0) ((4 * 16 + 0) * 1)
        = Fill.roundUnsigned (((16 : ℕ) : ℚ)) := hg
      _ = 16 := hval
  · have h0 : Fill.roundUnsigned (((0 : ℕ) : ℚ)) = 0 := by
      rw [Fill.roundUnsigned, truncZ_of_nonneg (by positivity)]
      rw [show (((0 : ℕ) : ℚ) + 1 / 2) = (1 : ℚ) / 2 by push_cast; ring]
      norm_num [Int.floor_eq_iff]
    rw [h0]
    norm_num

/-- Counterexample to C10: the claim says that in both solvers non-zero
mask pixels on the outermost row or column do not enter the catalogue; but
for W = H = 12 and a mask whose only non-zero pixel is (0, 5), on the
outermost row, the approximate solver's catalogue contains (0, 5). -/
theorem claim_C10_counterexample :
    ((fun r c => decide (r = 0) && decide (c = 5)) 0 5 = true) ∧
    (((0, 5) : Fill.Pos) ∈
      (FillBiLin.construct (fun r c => decide (r = 0) && decide (c = 5))
        12 12).coords) := by
  constructor
  · decide
  · decide

/-- C10 as amended: the exact solver keeps, in caller order, exactly the
coordinate-list entries with row in [1, H-2] and col in [1, W-2], silently
dropping the rest; every catalogue entry of the exact from-mask pipeline is
interior, so non-zero border mask pixels never enter its catalogue and are
not filled.  The approximate solver, however, retains non-zero border
pixels as unknowns: on the 12-by-12 single-border-pixel mask the pixel
(0, 5) enters its catalogue with centre weight -3. -/
theorem claim_C10_amended :
    (∀ (coords : List (ℤ × ℤ)) (W H : ℕ),
      Fill.initCoords coords W H =
        ((coords.filter fun p =>
          decide (1 ≤ p.1 ∧ p.1 ≤ (H : ℤ) - 2 ∧ 1 ≤ p.2 ∧ p.2 ≤ (W : ℤ) - 2)).map
          fun p => (p.1.toNat, p.2.toNat))) ∧
    (∀ (mask : ℕ → ℤ) (W H stride : ℕ) (q : Fill.Pos),
      q ∈ Fill.fillCoords mask W H stride →
      1 ≤ q.1 ∧ q.1 + 2 ≤ H ∧ 1 ≤ q.2 ∧ q.2 + 2 ≤ W) ∧
    (∀ (mask : ℕ → ℤ) (W H stride : ℕ) (q : Fill.Pos),
      (q.1 = 0 ∨ q.1 + 1 = H ∨ q.2 = 0 ∨ q.2 + 1 = W) →
      q ∉ Fill.fillCoords mask W H stride) ∧
    ((((0, 5) : Fill.Pos) ∈
        (FillBiLin.construct (fun r c => decide (r = 0) && decide (c = 5))
          12 12).coords) ∧
      (FillBiLin.construct (fun r c => decide (r = 0) && decide (c = 5))
        12 12).wts.cen 0 5 = -3) := by
  refine ⟨?_, ?_, ?_, by decide, by decide⟩
  · intro coords W H
    induction coords with
    | nil => rfl
    | cons p l ih =>
      by_cases h : 1 ≤ p.1 ∧ p.1 ≤ (H : ℤ) - 2 ∧ 1 ≤ p.2 ∧ p.2 ≤ (W : ℤ) - 2
      · rw [Fill.initCoords, List.filterMap_cons_some (by rw [if_pos h]),
          List.filter_cons_of_pos (by simpa using h), List.map_cons]
        rw [Fill.initCoords] at ih
        rw [ih]
      · rw [Fill.initCoords, List.filterMap_cons_none (by rw [if_neg h]),
          List.filter_cons_of_neg (by simpa using h)]
        rw [Fill.initCoords] at ih
        rw [ih]
  · intro mask W H stride q hq
    have hq2 : q ∈ Fill.findCoords mask W H stride := by
      rwa [← Fill.fillCoords_eq_findCoords]
    obtain ⟨h1, h2, h3, h4, -⟩ := Fill.mem_findCoords.mp hq2
    exact ⟨h1, h2, h3, h4⟩
  · intro mask W H stride q hb hq
    have hq2 : q ∈ Fill.findCoords mask W H stride := by
      rwa [← Fill.fillCoords_eq_findCoords]
    obtain ⟨h1, h2, h3, h4, -⟩ := Fill.mem_findCoords.mp hq2
    omega

/-- Witness for the amended C10 at concrete inputs: the interior pixel
(1, 1) of the 3-by-3 single-hole mask is retained with interior bounds, and
the border pixel (0, 1) is excluded from the exact catalogue. -/
theorem claim_C10_witness :
    (((1, 1) : Fill.Pos) ∈ Fill.fillCoords (fun _ => 1) 3 3 1 ∧
      1 ≤ (1 : ℕ) ∧ 1 + 2 ≤ 3 ∧ 1 ≤ (1 : ℕ) ∧ 1 + 2 ≤ 3) ∧
    (((0, 1) : Fill.Pos) ∉ Fill.fillCoords (fun _ => 1) 3 3 1) :=
  ⟨⟨by decide, claim_C10_amended.2.1 (fun _ => 1) 3 3 1 (1, 1) (by decide)⟩,
   claim_C10_amended.2.2.1 (fun _ => 1) 3 3 1 (0, 1) (Or.inl rfl)⟩

/-- C7: in the approximate solver, after construction, every pixel whose
centre weight is non-zero has its four off-centre weights summing to the
negation of the centre weight, for every mask and image size. -/
theorem claim_C7 (mask0 : ℕ → ℕ → Bool) (w h r c : ℕ)
    (_hne : (FillBiLin.construct mask0 w h).wts.cen r c ≠ 0) :
    (FillBiLin.construct mask0 w h).wts.lft r c +
      (FillBiLin.construct mask0 w h).wts.rgt r c +
      (FillBiLin.construct mask0 w h).wts.top r c +
      (FillBiLin.construct mask0 w h).wts.bot r c =
      -(FillBiLin.construct mask0 w h).wts.cen r c :=
  FillBiLin.construct_offSum mask0 w h r c

/-- Witness for C7 at a concrete input: for the 12-by-12 image with the
solid 6-by-6 interior mask, pixel (3, 3) has non-zero centre weight and its
weights balance. -/
theorem claim_C7_witness :
    (FillBiLin.construct (fun r c => 3 ≤ r && r ≤ 8 && 3 ≤ c && c ≤ 8)
        12 12).wts.cen 3 3 ≠ 0 ∧
    (FillBiLin.construct (fun r c => 3 ≤ r && r ≤ 8 && 3 ≤ c && c ≤ 8)
        12 12).wts.lft 3 3 +
      (FillBiLin.construct (fun r c => 3 ≤ r && r ≤ 8 && 3 ≤ c && c ≤ 8)
        12 12).wts.rgt 3 3 +
      (FillBiLin.construct (fun r c => 3 ≤ r && r ≤ 8 && 3 ≤ c && c ≤ 8)
        12 12).wts.top 3 3 +
      (FillBiLin.construct (fun r c => 3 ≤ r && r ≤ 8 && 3 ≤ c && c ≤ 8)
        12 12).wts.bot 3 3 =
      -(FillBiLin.construct (fun r c => 3 ≤ r && r ≤ 8 && 3 ≤ c && c ≤ 8)
        12 12).wts.cen 3 3 :=
  ⟨by decide, claim_C7 (fun r c => 3 ≤ r && r ≤ 8 && 3 ≤ c && c ≤ 8)
    12 12 3 3 (by decide)⟩

end RFD
